import Mathlib

/-!
Verification development for the hajimi-king-go scanning engine.

This file gives a shallow embedding, in Lean 4, of the parts of the Go
source that the specification's checkable claims are about:

* `internal/github` token manager (rotation and failure blacklisting),
* the `concurrent` worker pool (bounded queue, non-blocking submit),
* the main scan loop's skip filter and scanned-SHA bookkeeping,
* the multi-level content cache (`internal/cache`),
* the paginated GitHub code search (`Client.SearchForKeys`),
* the checkpoint file manager (`internal/filemanager`), including a
  faithful model of Go `encoding/json` marshalling for the
  `models.Checkpoint` struct, and
* query normalization (`FileManager.NormalizeQuery`).

Modelling conventions: Go `time.Time` values are embedded as `Int`
(nanoseconds since an arbitrary epoch; `time.Duration` likewise), Go maps
are embedded as association lists with unique keys (Go maps cannot hold a
key twice), Go strings are embedded as Lean `String`/`List Char`
(sequences of Unicode scalar values), and functions that can fail return
`Option`/`Except`. `time.Now()` is passed in as an explicit argument.
Concurrency is serialized: the Go code guards every state transition of
the structures modelled here with a mutex, so each operation is embedded
as a pure state transformer.
-/

namespace HKGo

/-! ## Token manager (`internal/github`, TokenManager)

Embeds `TokenManager`, `NewTokenManager`'s TTL constant, `GetNextToken`,
`BlacklistToken`, `isBlacklisted` and `cleanBlacklist` from the Go
source. The `blacklist` map (token to the `time.Now()` recorded when it
was blacklisted) is an association list; `blInsert` is Go map
assignment, `blLookup` is Go map lookup. -/

/-- Lookup in the blacklist association list (Go `tm.blacklist[token]`). -/
def blLookup : List (String × Int) → String → Option Int
  | [], _ => none
  | (k, v) :: rest, tok => if k = tok then some v else blLookup rest tok

/-- Go map assignment `tm.blacklist[token] = now`: replace the entry if the
key is present, append it otherwise. -/
def blInsert : List (String × Int) → String → Int → List (String × Int)
  | [], tok, t => [(tok, t)]
  | (k, v) :: rest, tok, t =>
    if k = tok then (tok, t) :: rest else (k, v) :: blInsert rest tok t

/-- State of `github.TokenManager`: the (shuffled) token list, the rotation
cursor `current`, the blacklist map, and the blacklist TTL. -/
structure TokenManager where
  tokens : List String
  current : Nat
  blacklist : List (String × Int)
  blacklistTTL : Int
  deriving Repr, DecidableEq

/-- The TTL installed by `NewTokenManager`: 5 minutes, in nanoseconds
(Go `5 * time.Minute`). -/
def newTokenManagerTTL : Int := 5 * 60 * 1000000000

/-- Go `TokenManager.isBlacklisted`: a token is blacklisted while
`time.Since(blacklistTime) < tm.blacklistTTL`. -/
def isBlacklisted (tm : TokenManager) (token : String) (now : Int) : Bool :=
  match blLookup tm.blacklist token with
  | none => false
  | some t => decide (now - t < tm.blacklistTTL)

/-- Go `TokenManager.cleanBlacklist`: delete every entry whose age is at
least the TTL (keep those with `now - t < ttl`). -/
def cleanBlacklist (bl : List (String × Int)) (ttl now : Int) :
    List (String × Int) :=
  bl.filter (fun p => now - p.2 < ttl)

/-- Go `TokenManager.BlacklistToken`: record `time.Now()` for the token.
The `reason` argument is only logged. -/
def BlacklistToken (tm : TokenManager) (token : String) (_reason : String)
    (now : Int) : TokenManager :=
  { tm with blacklist := blInsert tm.blacklist token now }

/-- The scan loop inside `GetNextToken`: up to `fuel` attempts (the Go code
uses `len(tm.tokens)` attempts), examine `tm.tokens[tm.current]`; if it is
not blacklisted return it, either way advance the cursor modulo the token
count. -/
def getNextGo (tm : TokenManager) (now : Int) :
    Nat → Option String × TokenManager
  | 0 => (none, tm)
  | fuel + 1 =>
    if isBlacklisted tm (tm.tokens.getD tm.current "") now then
      getNextGo { tm with current := (tm.current + 1) % tm.tokens.length }
        now fuel
    else
      (some (tm.tokens.getD tm.current ""),
        { tm with current := (tm.current + 1) % tm.tokens.length })

/-- Go `TokenManager.GetNextToken`: purge expired blacklist entries, then
round-robin scan for an available token; `none` models the
"no available tokens" error. -/
def GetNextToken (tm : TokenManager) (now : Int) :
    Option String × TokenManager :=
  let tm1 : TokenManager :=
    { tm with blacklist := cleanBlacklist tm.blacklist tm.blacklistTTL now }
  getNextGo tm1 now tm1.tokens.length

/-- An externally visible operation on the token manager, with the
`time.Now()` at which it runs. -/
inductive PoolEvent where
  | blacklistEv (token reason : String) (t : Int)
  | getNextEv (t : Int)
  deriving Repr, DecidableEq

/-- The wall-clock time at which an event runs. -/
def PoolEvent.time : PoolEvent → Int
  | .blacklistEv _ _ t => t
  | .getNextEv t => t

/-- Whether an event blacklists the given token. -/
def PoolEvent.blacklists (tok : String) : PoolEvent → Bool
  | .blacklistEv token _ _ => token = tok
  | .getNextEv _ => false

/-- Apply one operation to the token manager state. -/
def applyPoolEvent (tm : TokenManager) : PoolEvent → TokenManager
  | .blacklistEv token reason t => BlacklistToken tm token reason t
  | .getNextEv t => (GetNextToken tm t).2

/-- Run a sequence of operations. -/
def runPool (tm : TokenManager) (evs : List PoolEvent) : TokenManager :=
  evs.foldl applyPoolEvent tm

/-- Results of `n` consecutive `GetNextToken` calls, all at time `t`. -/
def callSeq (tm : TokenManager) (t : Int) : Nat → List (Option String)
  | 0 => []
  | k + 1 =>
    let r := GetNextToken tm t
    r.1 :: callSeq r.2 t k

/-- The blacklist map has each key at most once (true of every Go map). -/
def keysNodup (bl : List (String × Int)) : Prop := (bl.map Prod.fst).Nodup

theorem blLookup_blInsert_self (bl : List (String × Int)) (tok : String)
    (t : Int) : blLookup (blInsert bl tok t) tok = some t := by
  induction bl with
  | nil => simp [blInsert, blLookup]
  | cons hd tl ih =>
    by_cases h : hd.1 = tok
    · simp [blInsert, h, blLookup]
    · simpa [blInsert, h, blLookup] using ih

theorem blLookup_blInsert_ne (bl : List (String × Int)) {tok tok' : String}
    (t : Int) (h : tok' ≠ tok) :
    blLookup (blInsert bl tok' t) tok = blLookup bl tok := by
  induction bl with
  | nil => simp [blInsert, blLookup, h]
  | cons hd tl ih =>
    by_cases hk : hd.1 = tok'
    · simp [blInsert, hk, blLookup, h, hk ▸ h]
    · simp only [blInsert, hk, if_false, blLookup]
      by_cases hk2 : hd.1 = tok <;> simp [hk2, ih]

theorem blLookup_clean_of_keep {bl : List (String × Int)} {tok : String}
    {T ttl now : Int} (h : blLookup bl tok = some T) (hk : now - T < ttl) :
    blLookup (cleanBlacklist bl ttl now) tok = some T := by
  induction bl with
  | nil => simp [blLookup] at h
  | cons hd tl ih =>
    by_cases heq : hd.1 = tok
    · rw [blLookup, if_pos heq] at h
      cases h
      have : (fun p : String × Int => decide (now - p.2 < ttl)) hd = true := by
        simpa using hk
      simp [cleanBlacklist, List.filter_cons, this, blLookup, heq]
    · rw [blLookup, if_neg heq] at h
      by_cases hkeep : now - hd.2 < ttl
      · simp [cleanBlacklist, List.filter_cons, hkeep, blLookup, heq]
        exact ih h
      · simp [cleanBlacklist, List.filter_cons, hkeep]
        exact ih h

theorem getNextGo_fields (fuel : Nat) :
    ∀ (tm : TokenManager) (now : Int),
      (getNextGo tm now fuel).2.blacklist = tm.blacklist ∧
      (getNextGo tm now fuel).2.blacklistTTL = tm.blacklistTTL ∧
      (getNextGo tm now fuel).2.tokens = tm.tokens := by
  induction fuel with
  | zero => intro tm now; simp [getNextGo]
  | succ n ih =>
    intro tm now
    rw [getNextGo]
    by_cases h : isBlacklisted tm (tm.tokens.getD tm.current "") now
    · rw [if_pos h]
      exact ih { tm with current := (tm.current + 1) % tm.tokens.length } now
    · rw [if_neg h]
      exact ⟨rfl, rfl, rfl⟩

theorem GetNextToken_fields (tm : TokenManager) (now : Int) :
    (GetNextToken tm now).2.blacklist
        = cleanBlacklist tm.blacklist tm.blacklistTTL now ∧
      (GetNextToken tm now).2.blacklistTTL = tm.blacklistTTL ∧
      (GetNextToken tm now).2.tokens = tm.tokens := by
  unfold GetNextToken
  exact getNextGo_fields _ _ _

theorem runPool_lookup (evs : List PoolEvent) :
    ∀ (tm : TokenManager) (tok : String) (T : Int),
      blLookup tm.blacklist tok = some T →
      (∀ e ∈ evs, e.blacklists tok = false) →
      (∀ e ∈ evs, e.time - T < tm.blacklistTTL) →
      blLookup (runPool tm evs).blacklist tok = some T ∧
        (runPool tm evs).blacklistTTL = tm.blacklistTTL := by
  induction evs with
  | nil => intro tm tok T h _ _; exact ⟨h, rfl⟩
  | cons e rest ih =>
    intro tm tok T h hnb ht
    have hnb_e := hnb e (by simp)
    have ht_e := ht e (by simp)
    have step :
        blLookup (applyPoolEvent tm e).blacklist tok = some T ∧
          (applyPoolEvent tm e).blacklistTTL = tm.blacklistTTL := by
      cases e with
      | blacklistEv token reason t =>
        have hne : token ≠ tok := by
          simpa [PoolEvent.blacklists] using hnb_e
        exact ⟨by simpa [applyPoolEvent, BlacklistToken]
            using (blLookup_blInsert_ne tm.blacklist t hne).trans h, rfl⟩
      | getNextEv t =>
        have hf := GetNextToken_fields tm t
        refine ⟨?_, hf.2.1⟩
        rw [applyPoolEvent, hf.1]
        exact blLookup_clean_of_keep h (by simpa [PoolEvent.time] using ht_e)
    have := ih (applyPoolEvent tm e) tok T step.1
      (fun x hx => hnb x (by simp [hx]))
      (fun x hx => step.2 ▸ ht x (by simp [hx]))
    exact ⟨this.1, this.2.trans step.2⟩

theorem getNextGo_not_blacklisted (fuel : Nat) :
    ∀ (tm : TokenManager) (now : Int) (tok : String),
      (getNextGo tm now fuel).1 = some tok →
      isBlacklisted tm tok now = false := by
  induction fuel with
  | zero => intro tm now tok h; simp [getNextGo] at h
  | succ n ih =>
    intro tm now tok h
    rw [getNextGo] at h
    by_cases hb : isBlacklisted tm (tm.tokens.getD tm.current "") now
    · rw [if_pos hb] at h
      exact ih { tm with current := (tm.current + 1) % tm.tokens.length }
        now tok h
    · rw [if_neg hb] at h
      simp only [Option.some.injEq] at h
      rw [← h]
      simpa [isBlacklisted] using hb

theorem GetNextToken_ne_blacklisted (tm : TokenManager) (now : Int)
    (tok : String) (T : Int) (hT : blLookup tm.blacklist tok = some T)
    (h : now - T < tm.blacklistTTL) : (GetNextToken tm now).1 ≠ some tok := by
  intro hret
  have hclean : blLookup (cleanBlacklist tm.blacklist tm.blacklistTTL now) tok
      = some T := blLookup_clean_of_keep hT h
  have hnb := getNextGo_not_blacklisted _ _ now tok hret
  rw [isBlacklisted] at hnb
  simp only [hclean] at hnb
  simp [h] at hnb

theorem blLookup_none_clean {bl : List (String × Int)} {tok : String}
    (ttl now : Int) (h : blLookup bl tok = none) :
    blLookup (cleanBlacklist bl ttl now) tok = none := by
  induction bl with
  | nil => simp [cleanBlacklist, blLookup]
  | cons hd tl ih =>
    rw [blLookup] at h
    by_cases heq : hd.1 = tok
    · simp [heq] at h
    · rw [if_neg heq] at h
      by_cases hkeep : now - hd.2 < ttl
      · simp [cleanBlacklist, List.filter_cons, hkeep, blLookup, heq] at ih ⊢
        exact ih h
      · simp [cleanBlacklist, List.filter_cons, hkeep] at ih ⊢
        exact ih h

theorem blLookup_eq_none_of_not_mem {bl : List (String × Int)} {tok : String}
    (h : tok ∉ bl.map Prod.fst) : blLookup bl tok = none := by
  induction bl with
  | nil => rfl
  | cons hd tl ih =>
    simp only [List.map_cons, List.mem_cons, not_or] at h
    rw [blLookup, if_neg (fun he => h.1 he.symm)]
    exact ih h.2

theorem blLookup_clean_of_drop {bl : List (String × Int)} {tok : String}
    {T ttl now : Int} (hnd : keysNodup bl) (h : blLookup bl tok = some T)
    (hk : ¬now - T < ttl) :
    blLookup (cleanBlacklist bl ttl now) tok = none := by
  induction bl with
  | nil => simp [blLookup] at h
  | cons hd tl ih =>
    rw [keysNodup, List.map_cons, List.nodup_cons] at hnd
    by_cases heq : hd.1 = tok
    · rw [blLookup, if_pos heq] at h
      cases h
      have hnone : blLookup tl tok = none :=
        blLookup_eq_none_of_not_mem (heq ▸ hnd.1)
      rw [cleanBlacklist, List.filter_cons, if_neg (by simpa using hk)]
      exact blLookup_none_clean ttl now hnone
    · rw [blLookup, if_neg heq] at h
      by_cases hkeep : now - hd.2 < ttl
      · simp only [cleanBlacklist, List.filter_cons, decide_eq_true_eq,
          hkeep, if_pos] at ih ⊢
        rw [blLookup, if_neg heq]
        exact ih hnd.2 h
      · simp only [cleanBlacklist, List.filter_cons, decide_eq_true_eq,
          hkeep, if_neg, not_false_iff] at ih ⊢
        exact ih hnd.2 h

theorem isBlacklisted_clean_false {tm tm2 : TokenManager} {tok : String}
    {now : Int} (hnd : keysNodup tm.blacklist)
    (hbl : tm2.blacklist = cleanBlacklist tm.blacklist tm.blacklistTTL now)
    (httl : tm2.blacklistTTL = tm.blacklistTTL)
    (h : isBlacklisted tm tok now = false) :
    isBlacklisted tm2 tok now = false := by
  rw [isBlacklisted, hbl, httl]
  rw [isBlacklisted] at h
  rcases hL : blLookup tm.blacklist tok with _ | T
  · rw [blLookup_none_clean _ _ hL]
  · rw [hL] at h
    simp only [decide_eq_false_iff_not] at h
    rw [blLookup_clean_of_drop hnd hL h]

theorem keysNodup_clean {bl : List (String × Int)} (ttl now : Int)
    (hnd : keysNodup bl) : keysNodup (cleanBlacklist bl ttl now) := by
  rw [keysNodup] at hnd ⊢
  exact hnd.sublist ((List.filter_sublist bl).map Prod.fst)

theorem getNextGo_current_lt (fuel : Nat) :
    ∀ (tm : TokenManager) (now : Int), tm.current < tm.tokens.length →
      (getNextGo tm now fuel).2.current
        < (getNextGo tm now fuel).2.tokens.length := by
  induction fuel with
  | zero => intro tm now h; simpa [getNextGo] using h
  | succ n ih =>
    intro tm now h
    have hpos : 0 < tm.tokens.length := Nat.lt_of_le_of_lt (Nat.zero_le _) h
    rw [getNextGo]
    by_cases hb : isBlacklisted tm (tm.tokens.getD tm.current "") now
    · rw [if_pos hb]
      exact ih { tm with current := (tm.current + 1) % tm.tokens.length }
        now (Nat.mod_lt _ hpos)
    · rw [if_neg hb]
      exact Nat.mod_lt _ hpos

theorem getNextGo_finds (fuel : Nat) :
    ∀ (tm : TokenManager) (now : Int) (d : Nat) (tok : String),
      tm.current < tm.tokens.length → d < fuel →
      tm.tokens.getD ((tm.current + d) % tm.tokens.length) "" = tok →
      isBlacklisted tm tok now = false →
      ∃ j, j ≤ d ∧
        (getNextGo tm now fuel).1
          = some (tm.tokens.getD ((tm.current + j) % tm.tokens.length) "") ∧
        (getNextGo tm now fuel).2.current
          = ((tm.current + j) % tm.tokens.length + 1) % tm.tokens.length := by
  induction fuel with
  | zero => intro tm now d tok _ hd; exact absurd hd (Nat.not_lt_zero d)
  | succ n ih =>
    intro tm now d tok hc hd hget hav
    rw [getNextGo]
    by_cases hb : isBlacklisted tm (tm.tokens.getD tm.current "") now
    · have hd0 : d ≠ 0 := by
        intro h0
        rw [h0, Nat.add_zero, Nat.mod_eq_of_lt hc] at hget
        rw [hget] at hb
        rw [hav] at hb
        exact Bool.false_ne_true hb
      obtain ⟨d', rfl⟩ := Nat.exists_eq_succ_of_ne_zero hd0
      rw [if_pos hb]
      have hpos : 0 < tm.tokens.length := Nat.pos_of_ne_zero (by omega)
      have hidx :
          ((tm.current + 1) % tm.tokens.length + d') % tm.tokens.length
            = (tm.current + (d' + 1)) % tm.tokens.length := by
        rw [Nat.mod_add_mod]
        ring_nf
      obtain ⟨j, hj, hres, hcur⟩ :=
        ih { tm with current := (tm.current + 1) % tm.tokens.length } now d'
          tok (Nat.mod_lt _ hpos) (Nat.lt_of_succ_lt_succ hd)
          (by rw [show ({ tm with
              current := (tm.current + 1) % tm.tokens.length } :
              TokenManager).tokens = tm.tokens from rfl, hidx]; exact hget)
          hav
      refine ⟨j + 1, Nat.succ_le_succ hj, ?_, ?_⟩
      · rw [hres]
        congr 1
        rw [Nat.mod_add_mod]
        ring_nf
      · rw [hcur]
        congr 2
        rw [Nat.mod_add_mod]
        ring_nf
    · rw [if_neg hb]
      refine ⟨0, Nat.zero_le d, ?_, ?_⟩ <;>
        simp [Nat.mod_eq_of_lt hc]

theorem callSeq_mem_mono :
    ∀ (k m : Nat) (tm : TokenManager) (t : Int) (x : Option String),
      k ≤ m → x ∈ callSeq tm t k → x ∈ callSeq tm t m := by
  intro k
  induction k with
  | zero => intro m tm t x _ hx; simp [callSeq] at hx
  | succ k ih =>
    intro m tm t x hkm hx
    obtain ⟨m', rfl⟩ :=
      Nat.exists_eq_succ_of_ne_zero (by omega : m ≠ 0)
    rw [callSeq] at hx ⊢
    rcases List.mem_cons.1 hx with h | h
    · exact List.mem_cons.2 (Or.inl h)
    · exact List.mem_cons.2 (Or.inr (ih m' _ t x (by omega) h))

theorem rotation_returns (d : Nat) :
    ∀ (tm : TokenManager) (tok : String) (t : Int),
      keysNodup tm.blacklist →
      tm.current < tm.tokens.length →
      d < tm.tokens.length →
      tm.tokens.getD ((tm.current + d) % tm.tokens.length) "" = tok →
      isBlacklisted tm tok t = false →
      some tok ∈ callSeq tm t (d + 1) := by
  induction d using Nat.strong_induction_on with
  | _ d ih =>
    intro tm tok t hnd hc hdn hget hav
    rw [callSeq]
    set tm1 : TokenManager :=
      { tm with blacklist :=
          cleanBlacklist tm.blacklist tm.blacklistTTL t } with htm1
    have hav1 : isBlacklisted tm1 tok t = false :=
      isBlacklisted_clean_false hnd rfl rfl hav
    have hfind := getNextGo_finds tm.tokens.length tm1 t d tok hc hdn hget hav1
    obtain ⟨j, hj, hres, hcur⟩ := hfind
    have h1tok : tm1.tokens = tm.tokens := rfl
    have h1cur : tm1.current = tm.current := rfl
    rw [h1tok, h1cur] at hres hcur
    have hGNT : GetNextToken tm t = getNextGo tm1 t tm.tokens.length := rfl
    by_cases heq : tm.tokens.getD ((tm.current + j) % tm.tokens.length) ""
        = tok
    · refine List.mem_cons.2 (Or.inl ?_)
      rw [hGNT, hres, heq]
    · refine List.mem_cons.2 (Or.inr ?_)
      have hjd : j < d := by
        rcases Nat.lt_or_ge j d with h | h
        · exact h
        · exact absurd (Nat.le_antisymm hj h ▸ hget) heq
      set tm2 := (GetNextToken tm t).2 with htm2
      have hflds := getNextGo_fields tm.tokens.length tm1 t
      have h2bl : tm2.blacklist
          = cleanBlacklist tm.blacklist tm.blacklistTTL t := by
        rw [htm2, hGNT]; exact hflds.1
      have h2ttl : tm2.blacklistTTL = tm.blacklistTTL := by
        rw [htm2, hGNT]; exact hflds.2.1
      have h2tok : tm2.tokens = tm.tokens := by
        rw [htm2, hGNT]; exact hflds.2.2
      have h2cur : tm2.current
          = ((tm.current + j) % tm.tokens.length + 1) % tm.tokens.length := by
        rw [htm2, hGNT]; exact hcur
      have hpos : 0 < tm.tokens.length := Nat.pos_of_ne_zero (by omega)
      have hd' : d - j - 1 < d := by omega
      have hcur_lt : tm2.current < tm2.tokens.length := by
        rw [h2tok, h2cur]; exact Nat.mod_lt _ hpos
      have hnd2 : keysNodup tm2.blacklist := by
        rw [h2bl]; exact keysNodup_clean _ _ hnd
      have hav2 : isBlacklisted tm2 tok t = false :=
        isBlacklisted_clean_false hnd h2bl h2ttl hav
      have hidx2 : (tm2.current + (d - j - 1)) % tm2.tokens.length
          = (tm.current + d) % tm.tokens.length := by
        rw [h2tok, h2cur, Nat.mod_add_mod, Nat.add_assoc, Nat.mod_add_mod]
        congr 1
        omega
      have hget2 : tm2.tokens.getD
          ((tm2.current + (d - j - 1)) % tm2.tokens.length) "" = tok := by
        rw [hidx2, h2tok]
        exact hget
      have := ih (d - j - 1) hd' tm2 tok t hnd2 hcur_lt
        (by rw [h2tok]; omega) hget2 hav2
      exact callSeq_mem_mono _ d tm2 t (some tok) (by omega) this

/-- C1: a credential token blacklisted at time `T` is not returned by any
`GetNextToken` call made before `T` plus the blacklist TTL (5 minutes),
provided it is not re-blacklisted in between; and at any time at least TTL
after `T` the token is eligible again (`isBlacklisted` is false) and a
round-robin pass of successive `GetNextToken` calls returns it within one
full rotation over the token list. -/
theorem claim_C1_blacklist_ttl :
    (∀ (tm0 : TokenManager) (tok reason : String) (T : Int)
        (evs : List PoolEvent) (t : Int),
      tm0.blacklistTTL = newTokenManagerTTL →
      (∀ e ∈ evs, e.blacklists tok = false) →
      (∀ e ∈ evs, e.time - T < newTokenManagerTTL) →
      t - T < newTokenManagerTTL →
      (GetNextToken (runPool (BlacklistToken tm0 tok reason T) evs) t).1
        ≠ some tok) ∧
    (∀ (tm : TokenManager) (tok : String) (T t : Int),
      tm.blacklistTTL = newTokenManagerTTL →
      keysNodup tm.blacklist →
      tm.current < tm.tokens.length →
      tok ∈ tm.tokens →
      blLookup tm.blacklist tok = some T →
      newTokenManagerTTL ≤ t - T →
      isBlacklisted tm tok t = false ∧
        some tok ∈ callSeq tm t tm.tokens.length) := by
  constructor
  · intro tm0 tok reason T evs t httl hnb ht hlt
    have hself : blLookup (BlacklistToken tm0 tok reason T).blacklist tok
        = some T := blLookup_blInsert_self tm0.blacklist tok T
    have httl1 : (BlacklistToken tm0 tok reason T).blacklistTTL
        = newTokenManagerTTL := httl
    have hrun := runPool_lookup evs (BlacklistToken tm0 tok reason T) tok T
      hself hnb (fun e he => by rw [httl1]; exact ht e he)
    exact GetNextToken_ne_blacklisted _ t tok T hrun.1
      (by rw [hrun.2, httl1]; exact hlt)
  · intro tm tok T t httl hnd hc hmem hT hge
    have hav : isBlacklisted tm tok t = false := by
      rw [isBlacklisted, hT]
      simp only [decide_eq_false_iff_not, not_lt]
      rw [httl]
      exact hge
    refine ⟨hav, ?_⟩
    have hpos : 0 < tm.tokens.length := Nat.lt_of_le_of_lt (Nat.zero_le _) hc
    obtain ⟨⟨p, hp⟩, hgetp⟩ := List.mem_iff_get.1 hmem
    have hd : (tm.tokens.length + p - tm.current) % tm.tokens.length
        < tm.tokens.length := Nat.mod_lt _ hpos
    have hcd : (tm.current +
        (tm.tokens.length + p - tm.current) % tm.tokens.length)
          % tm.tokens.length = p := by
      rw [Nat.add_mod_mod]
      have he : tm.current + (tm.tokens.length + p - tm.current)
          = tm.tokens.length + p := by omega
      rw [he, Nat.add_mod_left, Nat.mod_eq_of_lt hp]
    have hgetd : tm.tokens.getD ((tm.current +
        (tm.tokens.length + p - tm.current) % tm.tokens.length)
          % tm.tokens.length) "" = tok := by
      rw [hcd, List.getD_eq_getElem _ _ hp]
      exact hgetp
    have := rotation_returns _ tm tok t hnd hc hd hgetd hav
    exact callSeq_mem_mono _ _ tm t (some tok) (by omega) this

/-- Concrete instantiation of the C1 theorem: a two-token pool with token
a blacklisted at time 0; a call at time 2 (inside the TTL, after one
intervening call) never returns it, and at exactly time TTL it is eligible
again and returned within two calls. -/
theorem claim_C1_blacklist_ttl_witness :
    (GetNextToken
        (runPool
          (BlacklistToken
            ⟨["a", "b"], 0, [], newTokenManagerTTL⟩ "a" "403" 0)
          [PoolEvent.getNextEv 1]) 2).1 ≠ some "a" ∧
      (isBlacklisted
          ⟨["a", "b"], 0, [("a", 0)], newTokenManagerTTL⟩
          "a" newTokenManagerTTL = false ∧
        some "a" ∈ callSeq
          ⟨["a", "b"], 0, [("a", 0)], newTokenManagerTTL⟩
          newTokenManagerTTL 2) := by
  constructor
  · exact claim_C1_blacklist_ttl.1
      ⟨["a", "b"], 0, [], newTokenManagerTTL⟩ "a" "403" 0
      [PoolEvent.getNextEv 1] 2 rfl (by decide) (by decide) (by decide)
  · exact claim_C1_blacklist_ttl.2
      ⟨["a", "b"], 0, [("a", 0)], newTokenManagerTTL⟩ "a" 0
      newTokenManagerTTL rfl (by unfold keysNodup; decide) (by decide)
      (by decide) (by decide) (by decide)

/-! ## Worker pool (`concurrent` package, WorkerPool)

Embeds `NewWorkerPool` and `SubmitTask`. The buffered task channel
`make(chan Task, maxWorkers*2)` is embedded as the list of tasks sitting
unconsumed in the buffer; a channel send inside `select` with a `default`
branch succeeds exactly when the buffer has room (no worker is parked on a
receive when the buffered tasks are unconsumed), and otherwise falls to
`default` immediately. The `ctx.Done()` branch only fires after `Stop`,
which also sets `stopped`, so in the serialized model the `stopped` check
subsumes it. The task type is an interface in Go, embedded as a type
parameter. -/

/-- State of `concurrent.WorkerPool` relevant to task submission. -/
structure WorkerPool (α : Type) where
  maxWorkers : Nat
  taskQueue : List α
  stopped : Bool
  tasksSubmitted : Int
  deriving Repr

/-- Go `NewWorkerPool`: empty queue with buffer capacity `maxWorkers*2`. -/
def NewWorkerPool (α : Type) (maxWorkers : Nat) : WorkerPool α :=
  { maxWorkers := maxWorkers, taskQueue := [], stopped := false,
    tasksSubmitted := 0 }

/-- Go `WorkerPool.SubmitTask`: error if stopped; otherwise a non-blocking
channel send — enqueue and count the submission if the buffer has room,
else return the queue-full error immediately. -/
def SubmitTask {α : Type} (wp : WorkerPool α) (task : α) :
    Except String (WorkerPool α) :=
  if wp.stopped then Except.error "worker pool is stopped"
  else if wp.taskQueue.length < wp.maxWorkers * 2 then
    Except.ok { wp with taskQueue := wp.taskQueue ++ [task],
                        tasksSubmitted := wp.tasksSubmitted + 1 }
  else Except.error "task queue is full"

/-- C2: `SubmitTask` never blocks: on a running pool it succeeds (appending
the task and counting the submission) exactly while fewer tasks than the
queue capacity `2 * maxWorkers` are enqueued, and once the queue holds at
least that many unconsumed tasks it returns the queue-full error
immediately, leaving no way to wait for space. -/
theorem claim_C2_submit_nonblocking {α : Type} (wp : WorkerPool α)
    (task : α) (hrun : wp.stopped = false) :
    (wp.taskQueue.length < 2 * wp.maxWorkers →
      SubmitTask wp task
        = Except.ok { wp with taskQueue := wp.taskQueue ++ [task],
                              tasksSubmitted := wp.tasksSubmitted + 1 }) ∧
    (2 * wp.maxWorkers ≤ wp.taskQueue.length →
      SubmitTask wp task = Except.error "task queue is full") := by
  constructor
  · intro hlt
    rw [SubmitTask, if_neg (by simp [hrun]),
      if_pos (by rw [Nat.mul_comm]; exact hlt)]
  · intro hge
    rw [SubmitTask, if_neg (by simp [hrun]),
      if_neg (by rw [Nat.mul_comm]; omega)]

/-- Concrete instantiation of the C2 theorem: a pool with one worker
(capacity 2) accepts a task on an empty queue and rejects one when two
tasks sit unconsumed. -/
theorem claim_C2_submit_nonblocking_witness :
    SubmitTask (NewWorkerPool Nat 1) 7
        = Except.ok (⟨1, [7], false, 1⟩ : WorkerPool Nat) ∧
      SubmitTask
          (⟨1, [7, 8], false, 2⟩ : WorkerPool Nat) 9
        = Except.error "task queue is full" := by
  constructor
  · exact (claim_C2_submit_nonblocking (NewWorkerPool Nat 1) 7 rfl).1
      (by decide)
  · exact (claim_C2_submit_nonblocking
      (⟨1, [7, 8], false, 2⟩ : WorkerPool Nat) 9 rfl).2 (by decide)

/-! ## Scan state: skip filter and scanned-SHA bookkeeping (main package)

Embeds `models.GitHubSearchItem`, the `skipStats` map,
`HajimiKing.shouldSkipItem`, `HajimiKing.resetSkipStats`, the Go helper
`contains`, and the per-item body of `HajimiKing.mainLoop` (the variant
with the scanned-SHA retention cap).

Timestamps: the Go code stores `LastScanTime` and `pushed_at` as strings
and parses them inside the filter (`time.Parse`); each is embedded as the
parse result, `Option Int` — `none` models the empty string or a parse
failure, either of which makes the enclosing filter fall through exactly
as in the source. The age cutoff `time.Now().AddDate(0, 0, -days)` is an
externally computed value passed in as `ageCutoff`. -/

/-- Character-list prefix test (Go `strings.HasPrefix`). -/
def startsWithChars : List Char → List Char → Bool
  | [], _ => true
  | _ :: _, [] => false
  | a :: pre, b :: s => a == b && startsWithChars pre s

/-- Character-list substring test, first argument the needle
(Go `strings.Contains`). -/
def containsChars (sub : List Char) : List Char → Bool
  | [] => startsWithChars sub []
  | c :: rest => startsWithChars sub (c :: rest) || containsChars sub rest

/-- Go `strings.Contains(s, sub)`. -/
def goContains (s sub : String) : Bool := containsChars sub.toList s.toList

/-- Go helper `contains`: membership of a string in a slice. -/
def contains (slice : List String) (item : String) : Bool :=
  slice.any (fun s => s == item)

/-- Go `models.GitHubRepository` (the fields the scan loop reads);
`pushedAt` is the parse of the `pushed_at` string. -/
structure GitHubRepository where
  fullName : String
  pushedAt : Option Int
  deriving Repr, DecidableEq

/-- Go `models.GitHubSearchItem`. -/
structure GitHubSearchItem where
  sha : String
  path : String
  htmlURL : String
  repository : GitHubRepository
  deriving Repr, DecidableEq

/-- The four per-cause counters of `hk.skipStats`. -/
structure SkipStats where
  timeFilter : Nat
  shaDuplicate : Nat
  ageFilter : Nat
  docFilter : Nat
  deriving Repr, DecidableEq

/-- Go `HajimiKing.resetSkipStats`: all four counters back to zero. -/
def resetSkipStats : SkipStats :=
  { timeFilter := 0, shaDuplicate := 0, ageFilter := 0, docFilter := 0 }

/-- Filter 1 of `shouldSkipItem`: the repository was not pushed after the
checkpoint's last scan time (both timestamps must be present and parse). -/
def timeFilterHit (lastScanTime pushedAt : Option Int) : Bool :=
  match lastScanTime, pushedAt with
  | some lst, some rp => decide (rp ≤ lst)
  | _, _ => false

/-- Filter 3 of `shouldSkipItem`: the repository was last pushed before the
configured age cutoff. -/
def ageFilterHit (ageCutoff : Int) (pushedAt : Option Int) : Bool :=
  match pushedAt with
  | some rp => decide (rp < ageCutoff)
  | none => false

/-- Filter 4 of `shouldSkipItem`: the lower-cased path contains one of the
configured blacklist fragments (also lower-cased). -/
def docFilterHit (filePathBlacklist : List String) (path : String) : Bool :=
  filePathBlacklist.any (fun token => goContains path.toLower token.toLower)

/-- Go `HajimiKing.shouldSkipItem`: the four filters in source order, first
match wins and bumps its own counter; an item matching none is kept. -/
def shouldSkipItem (lastScanTime : Option Int) (scannedSHAs : List String)
    (ageCutoff : Int) (filePathBlacklist : List String)
    (item : GitHubSearchItem) (stats : SkipStats) :
    (Bool × String) × SkipStats :=
  if timeFilterHit lastScanTime item.repository.pushedAt then
    ((true, "time_filter"), { stats with timeFilter := stats.timeFilter + 1 })
  else if contains scannedSHAs item.sha then
    ((true, "sha_duplicate"),
      { stats with shaDuplicate := stats.shaDuplicate + 1 })
  else if ageFilterHit ageCutoff item.repository.pushedAt then
    ((true, "age_filter"), { stats with ageFilter := stats.ageFilter + 1 })
  else if docFilterHit filePathBlacklist item.path then
    ((true, "doc_filter"), { stats with docFilter := stats.docFilter + 1 })
  else ((false, ""), stats)

/-- The counters as a function of the filter position (0 to 3, in source
evaluation order). -/
def statBy (s : SkipStats) : Nat → Nat
  | 0 => s.timeFilter
  | 1 => s.shaDuplicate
  | 2 => s.ageFilter
  | 3 => s.docFilter
  | _ => 0

/-- The reason strings, indexed by filter position. -/
def filterNames : List String :=
  ["time_filter", "sha_duplicate", "age_filter", "doc_filter"]

/-- The scanned-SHA bookkeeping of one `mainLoop` item iteration: consult
the skip filter; for a processed item, first trim the list to its most
recent 5000 entries when it holds more than 10000, then append the item's
SHA. -/
def mainLoopItemStep (lastScanTime : Option Int) (ageCutoff : Int)
    (filePathBlacklist : List String) (scannedSHAs : List String)
    (stats : SkipStats) (item : GitHubSearchItem) :
    List String × SkipStats :=
  if (shouldSkipItem lastScanTime scannedSHAs ageCutoff
      filePathBlacklist item stats).1.1 then
    (scannedSHAs,
      (shouldSkipItem lastScanTime scannedSHAs ageCutoff
        filePathBlacklist item stats).2)
  else
    ((if scannedSHAs.length > 10000 then
        scannedSHAs.drop (scannedSHAs.length - 5000)
      else scannedSHAs) ++ [item.sha],
      (shouldSkipItem lastScanTime scannedSHAs ageCutoff
        filePathBlacklist item stats).2)

/-- C4: the skip decision consults the four filters in exactly the order
time_filter, sha_duplicate, age_filter, doc_filter: the first filter that
matches (position `i` in that order) decides the skip with its reason
string, and increments its own counter and no other; an item matching no
filter is not skipped and leaves every counter unchanged. The counters are
reset to zero at the start of every scan cycle by `resetSkipStats`. -/
theorem claim_C4_skip_pipeline (lastScanTime : Option Int)
    (scannedSHAs : List String) (ageCutoff : Int)
    (filePathBlacklist : List String) (item : GitHubSearchItem)
    (stats : SkipStats) :
    (match List.findIdx? (fun b => b)
        [timeFilterHit lastScanTime item.repository.pushedAt,
         contains scannedSHAs item.sha,
         ageFilterHit ageCutoff item.repository.pushedAt,
         docFilterHit filePathBlacklist item.path] with
      | some i =>
        (shouldSkipItem lastScanTime scannedSHAs ageCutoff filePathBlacklist
            item stats).1 = (true, filterNames.getD i "") ∧
          ∀ k, statBy (shouldSkipItem lastScanTime scannedSHAs ageCutoff
              filePathBlacklist item stats).2 k
            = statBy stats k + (if k = i then 1 else 0)
      | none =>
        (shouldSkipItem lastScanTime scannedSHAs ageCutoff filePathBlacklist
            item stats).1 = (false, "") ∧
          (shouldSkipItem lastScanTime scannedSHAs ageCutoff filePathBlacklist
            item stats).2 = stats) ∧
      resetSkipStats = ⟨0, 0, 0, 0⟩ := by
  refine ⟨?_, rfl⟩
  by_cases h1 : timeFilterHit lastScanTime item.repository.pushedAt
  · simp only [List.findIdx?_cons, h1, cond_true, if_pos]
    refine ⟨by simp [shouldSkipItem, h1, filterNames], ?_⟩
    intro k
    rcases k with _ | _ | _ | _ | k <;>
      simp [shouldSkipItem, h1, statBy]
  · by_cases h2 : contains scannedSHAs item.sha
    · simp only [List.findIdx?_cons, h1, h2, cond_true, cond_false]
      refine ⟨by simp [shouldSkipItem, h1, h2, filterNames], ?_⟩
      intro k
      rcases k with _ | _ | _ | _ | k <;>
        simp [shouldSkipItem, h1, h2, statBy]
    · by_cases h3 : ageFilterHit ageCutoff item.repository.pushedAt
      · simp only [List.findIdx?_cons, h1, h2, h3, cond_true, cond_false]
        refine ⟨by simp [shouldSkipItem, h1, h2, h3, filterNames], ?_⟩
        intro k
        rcases k with _ | _ | _ | _ | k <;>
          simp [shouldSkipItem, h1, h2, h3, statBy]
      · by_cases h4 : docFilterHit filePathBlacklist item.path
        · simp only [List.findIdx?_cons, h1, h2, h3, h4, cond_true,
            cond_false]
          refine ⟨by simp [shouldSkipItem, h1, h2, h3, h4, filterNames], ?_⟩
          intro k
          rcases k with _ | _ | _ | _ | k <;>
            simp [shouldSkipItem, h1, h2, h3, h4, statBy]
        · simp only [List.findIdx?_cons, h1, h2, h3, h4, cond_false,
            List.findIdx?_nil]
          exact ⟨by simp [shouldSkipItem, h1, h2, h3, h4],
            by simp [shouldSkipItem, h1, h2, h3, h4]⟩

/-- Concrete instantiation of the C4 theorem: an item whose SHA is already
recorded (and no fresher filter fires) is skipped as sha_duplicate with
only that counter bumped. -/
theorem claim_C4_skip_pipeline_witness :
    (shouldSkipItem none ["s1"] 0 ["docs"]
        ⟨"s1", "main.go", "u", ⟨"r", none⟩⟩ resetSkipStats).1
      = (true, "sha_duplicate") ∧
      statBy (shouldSkipItem none ["s1"] 0 ["docs"]
          ⟨"s1", "main.go", "u", ⟨"r", none⟩⟩ resetSkipStats).2 1 = 1 := by
  have h := claim_C4_skip_pipeline none ["s1"] 0 ["docs"]
    ⟨"s1", "main.go", "u", ⟨"r", none⟩⟩ resetSkipStats
  have hidx : List.findIdx? (fun b => b)
      [timeFilterHit none (⟨"s1", "main.go", "u",
          ⟨"r", none⟩⟩ : GitHubSearchItem).repository.pushedAt,
       contains ["s1"] (⟨"s1", "main.go", "u",
          ⟨"r", none⟩⟩ : GitHubSearchItem).sha,
       ageFilterHit 0 (⟨"s1", "main.go", "u",
          ⟨"r", none⟩⟩ : GitHubSearchItem).repository.pushedAt,
       docFilterHit ["docs"] (⟨"s1", "main.go", "u",
          ⟨"r", none⟩⟩ : GitHubSearchItem).path] = some 1 := by decide
  rw [hidx] at h
  refine ⟨h.1.1, ?_⟩
  rw [h.1.2 1]
  decide

theorem contains_eq_false_iff (slice : List String) (x : String) :
    contains slice x = false ↔ x ∉ slice := by
  simp only [contains, List.any_eq_false, beq_iff_eq]
  constructor
  · intro h hx
    exact h x hx rfl
  · intro h y hy he
    exact h (he ▸ hy)

theorem shouldSkipItem_not_skipped {lastScanTime : Option Int}
    {scannedSHAs : List String} {ageCutoff : Int}
    {filePathBlacklist : List String} {item : GitHubSearchItem}
    {stats : SkipStats}
    (h : (shouldSkipItem lastScanTime scannedSHAs ageCutoff
        filePathBlacklist item stats).1.1 = false) :
    item.sha ∉ scannedSHAs := by
  by_cases h1 : timeFilterHit lastScanTime item.repository.pushedAt
  · rw [shouldSkipItem, if_pos h1] at h
    simp at h
  · by_cases h2 : contains scannedSHAs item.sha
    · rw [shouldSkipItem, if_neg h1, if_pos h2] at h
      simp at h
    · exact (contains_eq_false_iff _ _).1 (by simpa using h2)

/-- A family of pairwise-distinct SHA strings used to build a concrete
scanned-SHA list of a given length. -/
def mkSha (n : Nat) : String := String.mk (List.replicate n 'a')

theorem mkSha_injective : Function.Injective mkSha := by
  intro a b h
  have hd : List.replicate a 'a' = List.replicate b 'a' :=
    congrArg String.data h
  simpa using congrArg List.length hd

/-- A scanned-SHA list holding exactly 10000 distinct entries. -/
def shaCapList : List String := (List.range 10000).map mkSha

theorem shaCapList_length : shaCapList.length = 10000 := by
  simp [shaCapList]

theorem shaCapList_nodup : shaCapList.Nodup :=
  (List.nodup_range 10000).map mkSha_injective

theorem x_not_mem_shaCapList : "x" ∉ shaCapList := by
  intro h
  obtain ⟨n, _, heq⟩ := List.mem_map.1 h
  have hn : n = 1 := by
    have := congrArg String.length heq
    simpa [mkSha, String.length] using this
  rw [hn] at heq
  exact absurd heq (by decide)

/-- C3 counterexample: from a scanning state whose scanned-SHA list holds
exactly 10000 distinct entries (so it satisfies the claimed invariant for
a cap of 10000), processing one more item appends without evicting
anything, leaving 10001 entries: the list exceeds the cap, because the
code only trims once the length is strictly greater than 10000. -/
theorem claim_C3_counterexample :
    shaCapList.Nodup ∧ shaCapList.length = 10000 ∧
      (mainLoopItemStep none 0 [] shaCapList resetSkipStats
          ⟨"x", "p", "u", ⟨"r", none⟩⟩).1.length = 10001 := by
  refine ⟨shaCapList_nodup, shaCapList_length, ?_⟩
  have hcont : contains shaCapList "x" = false :=
    (contains_eq_false_iff _ _).2 x_not_mem_shaCapList
  have hskip : (shouldSkipItem none shaCapList 0 []
      (⟨"x", "p", "u", ⟨"r", none⟩⟩ : GitHubSearchItem)
      resetSkipStats).1.1 = false := by
    rw [shouldSkipItem]
    rw [if_neg (by simp [timeFilterHit])]
    rw [if_neg (by simp [hcont])]
    rw [if_neg (by simp [ageFilterHit])]
    rw [if_neg (by simp [docFilterHit])]
  rw [mainLoopItemStep, if_neg (by simp [hskip])]
  rw [if_neg (by rw [shaCapList_length]; omega)]
  simp [shaCapList_length]

/-- C3 as amended: one `mainLoop` item iteration preserves distinctness of
the scanned-SHA list and the bound of 10001 entries; a skipped item leaves
the list unchanged; a processed item appends its SHA, evicting nothing
while the list holds at most 10000 entries and evicting all but the most
recent 5000 entries (the oldest first) when it holds more. -/
theorem claim_C3_sha_bookkeeping (lastScanTime : Option Int)
    (ageCutoff : Int) (filePathBlacklist : List String)
    (scannedSHAs : List String) (stats : SkipStats)
    (item : GitHubSearchItem) (hnd : scannedSHAs.Nodup)
    (hlen : scannedSHAs.length ≤ 10001) :
    ((mainLoopItemStep lastScanTime ageCutoff filePathBlacklist scannedSHAs
        stats item).1.Nodup ∧
      (mainLoopItemStep lastScanTime ageCutoff filePathBlacklist scannedSHAs
        stats item).1.length ≤ 10001) ∧
    ((shouldSkipItem lastScanTime scannedSHAs ageCutoff filePathBlacklist
        item stats).1.1 = true →
      (mainLoopItemStep lastScanTime ageCutoff filePathBlacklist scannedSHAs
        stats item).1 = scannedSHAs) ∧
    ((shouldSkipItem lastScanTime scannedSHAs ageCutoff filePathBlacklist
        item stats).1.1 = false → scannedSHAs.length ≤ 10000 →
      (mainLoopItemStep lastScanTime ageCutoff filePathBlacklist scannedSHAs
        stats item).1 = scannedSHAs ++ [item.sha]) ∧
    ((shouldSkipItem lastScanTime scannedSHAs ageCutoff filePathBlacklist
        item stats).1.1 = false → 10000 < scannedSHAs.length →
      (mainLoopItemStep lastScanTime ageCutoff filePathBlacklist scannedSHAs
        stats item).1
        = scannedSHAs.drop (scannedSHAs.length - 5000) ++ [item.sha]) := by
  by_cases hs : (shouldSkipItem lastScanTime scannedSHAs ageCutoff
      filePathBlacklist item stats).1.1
  · rw [mainLoopItemStep, if_pos hs]
    exact ⟨⟨hnd, hlen⟩, fun _ => rfl,
      fun hf => absurd hs (by simp [hf]),
      fun hf => absurd hs (by simp [hf])⟩
  · have hmem : item.sha ∉ scannedSHAs :=
      shouldSkipItem_not_skipped (Bool.not_eq_true _ ▸ hs)
    rw [mainLoopItemStep, if_neg hs]
    by_cases hbig : scannedSHAs.length > 10000
    · rw [if_pos hbig]
      refine ⟨⟨?_, ?_⟩, fun ht => absurd ht (by simp [hs]),
        fun _ hle => absurd hbig (by omega), fun _ _ => rfl⟩
      · rw [List.nodup_append]
        refine ⟨hnd.sublist (List.drop_sublist _ _), List.nodup_singleton _,
          ?_⟩
        intro a ha hb
        rw [List.mem_singleton] at hb
        exact hmem (hb ▸ (List.drop_sublist _ _).subset ha)
      · rw [List.length_append, List.length_drop]
        simp only [List.length_singleton]
        omega
    · rw [if_neg hbig]
      refine ⟨⟨?_, ?_⟩, fun ht => absurd ht (by simp [hs]),
        fun _ _ => rfl, fun _ hgt => absurd hbig (by omega)⟩
      · rw [List.nodup_append]
        exact ⟨hnd, List.nodup_singleton _,
          fun a ha hb => hmem ((List.mem_singleton.1 hb) ▸ ha)⟩
      · rw [List.length_append]
        simp only [List.length_singleton]
        omega

/-- Concrete instantiation of the C3 (amended) theorem at a one-entry
scanned-SHA list and a fresh item. -/
theorem claim_C3_sha_bookkeeping_witness :
    (((mainLoopItemStep none 0 [] ["s1"] resetSkipStats
        ⟨"s2", "p", "u", ⟨"r", none⟩⟩).1.Nodup ∧
      (mainLoopItemStep none 0 [] ["s1"] resetSkipStats
        ⟨"s2", "p", "u", ⟨"r", none⟩⟩).1.length ≤ 10001) ∧
    ((shouldSkipItem none ["s1"] 0 []
        (⟨"s2", "p", "u", ⟨"r", none⟩⟩ : GitHubSearchItem)
        resetSkipStats).1.1 = true →
      (mainLoopItemStep none 0 [] ["s1"] resetSkipStats
        ⟨"s2", "p", "u", ⟨"r", none⟩⟩).1 = ["s1"]) ∧
    ((shouldSkipItem none ["s1"] 0 []
        (⟨"s2", "p", "u", ⟨"r", none⟩⟩ : GitHubSearchItem)
        resetSkipStats).1.1 = false → List.length ["s1"] ≤ 10000 →
      (mainLoopItemStep none 0 [] ["s1"] resetSkipStats
        ⟨"s2", "p", "u", ⟨"r", none⟩⟩).1 = ["s1"] ++ ["s2"]) ∧
    ((shouldSkipItem none ["s1"] 0 []
        (⟨"s2", "p", "u", ⟨"r", none⟩⟩ : GitHubSearchItem)
        resetSkipStats).1.1 = false → 10000 < List.length ["s1"] →
      (mainLoopItemStep none 0 [] ["s1"] resetSkipStats
        ⟨"s2", "p", "u", ⟨"r", none⟩⟩).1
        = List.drop (List.length ["s1"] - 5000) ["s1"] ++ ["s2"])) :=
  claim_C3_sha_bookkeeping none 0 [] ["s1"] resetSkipStats
    ⟨"s2", "p", "u", ⟨"r", none⟩⟩ (by decide) (by decide)

/-! ## Multi-level content cache (`internal/cache`)

Embeds `MultiLevelCache.Get`/`Set` together with `FileCache.Get`/`Set`
(the L2 tier, one JSON file per key) and the Redis L3 tier. Each tier's
store is an association list from key to its entry. The hashicorp LRU
used for L1 is external library code; its `Add`/`Remove`/`Get` are
embedded as insert/remove/lookup (capacity eviction only removes entries
and is not modelled). The Redis server's TTL expiry (`client.Set` with a
TTL, external service) is modelled as an `expiresAt` recorded on write
and checked on read. Values (`interface{}` in Go) are a type parameter.
File-system and network write errors are not modelled. -/

/-- Association-list lookup. -/
def assocLookup {V : Type} : List (String × V) → String → Option V
  | [], _ => none
  | (k, v) :: rest, key => if k = key then some v else assocLookup rest key

/-- Association-list insert-or-replace. -/
def assocInsert {V : Type} :
    List (String × V) → String → V → List (String × V)
  | [], key, v => [(key, v)]
  | (k, w) :: rest, key, v =>
    if k = key then (key, v) :: rest else (k, w) :: assocInsert rest key v

/-- Association-list removal of a key. -/
def assocRemove {V : Type} : List (String × V) → String → List (String × V)
  | [], _ => []
  | (k, w) :: rest, key =>
    if k = key then rest else (k, w) :: assocRemove rest key

/-- Go `cache.CacheItem` (an L1 entry). -/
structure CacheItem (V : Type) where
  value : V
  expiresAt : Int
  createdAt : Int
  accessCount : Int
  deriving Repr, DecidableEq

/-- Go `cache.FileCacheItem` (an L2 entry; also reused for the L3 tier,
whose entries carry a value and an expiry). -/
structure FileCacheItem (V : Type) where
  value : V
  expiresAt : Int
  createdAt : Int
  deriving Repr, DecidableEq

/-- Go `cache.CacheConfig` (the fields the embedded operations read). -/
structure CacheConfig where
  l1MaxSize : Nat
  l1TTL : Int
  l2TTL : Int
  l3TTL : Int
  deriving Repr, DecidableEq

/-- Go `cache.CacheMetrics`. -/
structure CacheMetrics where
  l1Hits : Int
  l1Misses : Int
  l2Hits : Int
  l2Misses : Int
  l3Hits : Int
  l3Misses : Int
  totalHits : Int
  totalMisses : Int
  evictions : Int
  setOperations : Int
  getOperations : Int
  deleteOperations : Int
  deriving Repr, DecidableEq

/-- Go `cache.MultiLevelCache`: the three tier stores (`l3 = none` models
a disabled L3, Go's nil `l3Cache`), the configuration and the metrics. -/
structure MultiLevelCache (V : Type) where
  l1 : List (String × CacheItem V)
  l2 : List (String × FileCacheItem V)
  l3 : Option (List (String × FileCacheItem V))
  config : CacheConfig
  metrics : CacheMetrics
  deriving Repr

/-- Go `FileCache.Get`: miss if the file is absent; if present but
`time.Now().After(ExpiresAt)`, delete the file and miss; else hit. -/
def fileCacheGet {V : Type} (l2 : List (String × FileCacheItem V))
    (now : Int) (key : String) :
    Option V × List (String × FileCacheItem V) :=
  match assocLookup l2 key with
  | none => (none, l2)
  | some it =>
    if now > it.expiresAt then (none, assocRemove l2 key)
    else (some it.value, l2)

/-- Go `FileCache.Set`: write the entry with expiry `time.Now().Add(ttl)`. -/
def fileCacheSet {V : Type} (l2 : List (String × FileCacheItem V))
    (now : Int) (key : String) (v : V) (ttl : Int) :
    List (String × FileCacheItem V) :=
  assocInsert l2 key ⟨v, now + ttl, now⟩

/-- Go `RedisCache.Get` over the modelled Redis store: a key whose TTL has
elapsed (`now ≥ expiresAt`, the server's expiry) is gone. -/
def redisGet {V : Type} (l3s : List (String × FileCacheItem V))
    (now : Int) (key : String) :
    Option V × List (String × FileCacheItem V) :=
  match assocLookup l3s key with
  | none => (none, l3s)
  | some it =>
    if now ≥ it.expiresAt then (none, assocRemove l3s key)
    else (some it.value, l3s)

/-- The L2-then-L3 part of `MultiLevelCache.Get` (the code after the L1
block), including promotion of slower-tier hits into the faster tiers. -/
def MultiLevelCache.getL2L3 {V : Type} (c : MultiLevelCache V) (now : Int)
    (key : String) : Option V × MultiLevelCache V :=
  match fileCacheGet c.l2 now key with
  | (some v, l2') =>
    (some v,
      { c with
        l2 := l2',
        l1 := assocInsert c.l1 key ⟨v, now + c.config.l1TTL, now, 1⟩,
        metrics := { c.metrics with
          l2Hits := c.metrics.l2Hits + 1,
          totalHits := c.metrics.totalHits + 1 } })
  | (none, l2') =>
    match c.l3 with
    | some l3s =>
      match redisGet l3s now key with
      | (some v, l3s') =>
        (some v,
          { c with
            l2 := fileCacheSet l2' now key v c.config.l2TTL,
            l1 := assocInsert c.l1 key ⟨v, now + c.config.l1TTL, now, 1⟩,
            l3 := some l3s',
            metrics := { c.metrics with
              l2Misses := c.metrics.l2Misses + 1,
              l3Hits := c.metrics.l3Hits + 1,
              totalHits := c.metrics.totalHits + 1 } })
      | (none, l3s') =>
        (none,
          { c with
            l2 := l2',
            l3 := some l3s',
            metrics := { c.metrics with
              l2Misses := c.metrics.l2Misses + 1,
              l3Misses := c.metrics.l3Misses + 1,
              totalMisses := c.metrics.totalMisses + 1 } })
    | none =>
      (none,
        { c with
          l2 := l2',
          metrics := { c.metrics with
            l2Misses := c.metrics.l2Misses + 1,
            totalMisses := c.metrics.totalMisses + 1 } })

/-- Go `MultiLevelCache.Get`: an L1 entry is returned only while
`time.Now().Before(ExpiresAt)` (bumping its access count); an expired L1
entry is removed and the lookup falls through to L2/L3. -/
def MultiLevelCache.Get {V : Type} (c : MultiLevelCache V) (now : Int)
    (key : String) : Option V × MultiLevelCache V :=
  match assocLookup c.l1 key with
  | some it =>
    if now < it.expiresAt then
      (some it.value,
        { c with
          l1 := assocInsert c.l1 key
            { it with accessCount := it.accessCount + 1 },
          metrics := { c.metrics with
            l1Hits := c.metrics.l1Hits + 1,
            totalHits := c.metrics.totalHits + 1 } })
    else
      MultiLevelCache.getL2L3
        { c with
          l1 := assocRemove c.l1 key,
          metrics := { c.metrics with
            l1Misses := c.metrics.l1Misses + 1 } } now key
  | none =>
    MultiLevelCache.getL2L3
      { c with
        metrics := { c.metrics with
          l1Misses := c.metrics.l1Misses + 1 } } now key

/-- Go `MultiLevelCache.Set`: only the L1 entry gets the caller's `ttl`;
L2 and (when enabled) L3 are always written with the configured tier TTLs. -/
def MultiLevelCache.Set {V : Type} (c : MultiLevelCache V) (now : Int)
    (key : String) (v : V) (ttl : Int) : MultiLevelCache V :=
  { c with
    l1 := assocInsert c.l1 key ⟨v, now + ttl, now, 0⟩,
    l2 := fileCacheSet c.l2 now key v c.config.l2TTL,
    l3 := match c.l3 with
      | some l3s => some (assocInsert l3s key ⟨v, now + c.config.l3TTL, now⟩)
      | none => none,
    metrics := { c.metrics with
      setOperations := c.metrics.setOperations + 1 } }

theorem fileCacheGet_sound {V : Type} {l2 : List (String × FileCacheItem V)}
    {now : Int} {key : String} {v : V}
    (h : (fileCacheGet l2 now key).1 = some v) :
    ∃ it, assocLookup l2 key = some it ∧ now ≤ it.expiresAt
      ∧ v = it.value := by
  rw [fileCacheGet] at h
  rcases hL : assocLookup l2 key with _ | it
  · rw [hL] at h
    simp at h
  · rw [hL] at h
    dsimp only at h
    by_cases hx : now > it.expiresAt
    · rw [if_pos hx] at h
      simp at h
    · rw [if_neg hx] at h
      simp only [Option.some.injEq] at h
      exact ⟨it, rfl, by omega, h.symm⟩

theorem redisGet_sound {V : Type} {l3s : List (String × FileCacheItem V)}
    {now : Int} {key : String} {v : V}
    (h : (redisGet l3s now key).1 = some v) :
    ∃ it, assocLookup l3s key = some it ∧ now < it.expiresAt
      ∧ v = it.value := by
  rw [redisGet] at h
  rcases hL : assocLookup l3s key with _ | it
  · rw [hL] at h
    simp at h
  · rw [hL] at h
    dsimp only at h
    by_cases hx : now ≥ it.expiresAt
    · rw [if_pos hx] at h
      simp at h
    · rw [if_neg hx] at h
      simp only [Option.some.injEq] at h
      exact ⟨it, rfl, by omega, h.symm⟩

theorem getL2L3_sound {V : Type} {c : MultiLevelCache V} {now : Int}
    {key : String} {v : V}
    (h : (MultiLevelCache.getL2L3 c now key).1 = some v) :
    (∃ it, assocLookup c.l2 key = some it ∧ now ≤ it.expiresAt
        ∧ v = it.value) ∨
      (∃ l3s it, c.l3 = some l3s ∧ assocLookup l3s key = some it ∧
        now < it.expiresAt ∧ v = it.value) := by
  rw [MultiLevelCache.getL2L3] at h
  split at h
  · next v2 l2' heq =>
    simp only [Option.some.injEq] at h
    obtain ⟨it, hit, hexp, hval⟩ := fileCacheGet_sound (V := V) (by rw [heq])
    exact Or.inl ⟨it, hit, hexp, h ▸ hval⟩
  · next l2' heq =>
    split at h
    · next l3s h3 =>
      split at h
      · next v3 l3s' hr =>
        simp only [Option.some.injEq] at h
        obtain ⟨it, hit, hexp, hval⟩ := redisGet_sound (V := V) (by rw [hr])
        exact Or.inr ⟨l3s, it, h3, hit, hexp, h ▸ hval⟩
      · next l3s' hr =>
        simp at h
    · next h3 =>
      simp at h

/-- C5: a cache `Get` never serves a tier entry whose expiry has passed —
any returned value comes from a live L1 entry (`now` strictly before its
`expiresAt`), a live L2 entry, or a live L3 entry; an L1 entry found
expired is removed from L1 and the lookup falls through to the lower
tiers; an L2 file found expired is deleted and reported as a miss by the
file tier. -/
theorem claim_C5_get_never_expired {V : Type} (c : MultiLevelCache V)
    (now : Int) (key : String) :
    (∀ v, (MultiLevelCache.Get c now key).1 = some v →
      (∃ it, assocLookup c.l1 key = some it ∧ now < it.expiresAt
          ∧ v = it.value) ∨
        (∃ it, assocLookup c.l2 key = some it ∧ now ≤ it.expiresAt
          ∧ v = it.value) ∨
        (∃ l3s it, c.l3 = some l3s ∧ assocLookup l3s key = some it ∧
          now < it.expiresAt ∧ v = it.value)) ∧
    (∀ it, assocLookup c.l1 key = some it → it.expiresAt ≤ now →
      MultiLevelCache.Get c now key
        = MultiLevelCache.getL2L3
            { c with
              l1 := assocRemove c.l1 key,
              metrics := { c.metrics with
                l1Misses := c.metrics.l1Misses + 1 } } now key) ∧
    (∀ it, assocLookup c.l2 key = some it → it.expiresAt < now →
      fileCacheGet c.l2 now key = (none, assocRemove c.l2 key)) := by
  refine ⟨?_, ?_, ?_⟩
  · intro v h
    rw [MultiLevelCache.Get] at h
    rcases hL : assocLookup c.l1 key with _ | it
    · rw [hL] at h
      dsimp only at h
      rcases getL2L3_sound h with h2 | h3
      · exact Or.inr (Or.inl h2)
      · exact Or.inr (Or.inr h3)
    · rw [hL] at h
      dsimp only at h
      by_cases hx : now < it.expiresAt
      · rw [if_pos hx] at h
        simp only [Option.some.injEq] at h
        exact Or.inl ⟨it, rfl, hx, h.symm⟩
      · rw [if_neg hx] at h
        rcases getL2L3_sound h with h2 | h3
        · exact Or.inr (Or.inl h2)
        · exact Or.inr (Or.inr h3)
  · intro it hL hexp
    rw [MultiLevelCache.Get, hL]
    dsimp only
    rw [if_neg (by omega)]
  · intro it hL hexp
    rw [fileCacheGet, hL]
    dsimp only
    rw [if_pos (by omega)]

/-- Concrete instantiation of the C5 theorem: a cache whose L1 holds key
k expired at time 5 and whose L2 holds it live until time 100; at
`now = 10` the value is served (from L2, not the dead L1 entry), the dead
L1 entry having been removed, and an L2 file expired in the past is
deleted and missed. -/
theorem claim_C5_get_never_expired_witness :
    ((MultiLevelCache.Get
        (⟨[("k", ⟨41, 5, 0, 0⟩)], [("k", ⟨41, 100, 0⟩)], none,
          ⟨100, 60, 3600, 86400⟩,
          ⟨0, 0, 0, 0, 0, 0, 0, 0, 0, 0, 0, 0⟩⟩ : MultiLevelCache Nat)
        10 "k").1 = some 41 →
      (∃ it, assocLookup [("k", (⟨41, 5, 0, 0⟩ : CacheItem Nat))] "k"
          = some it ∧ (10 : Int) < it.expiresAt ∧ 41 = it.value) ∨
        (∃ it, assocLookup [("k", (⟨41, 100, 0⟩ : FileCacheItem Nat))] "k"
          = some it ∧ (10 : Int) ≤ it.expiresAt ∧ 41 = it.value) ∨
        (∃ l3s it,
          (none : Option (List (String × FileCacheItem Nat))) = some l3s ∧
          assocLookup l3s "k" = some it ∧ (10 : Int) < it.expiresAt ∧
          41 = it.value)) ∧
      fileCacheGet [("k", (⟨41, 3, 0⟩ : FileCacheItem Nat))] 10 "k"
        = (none, assocRemove [("k", (⟨41, 3, 0⟩ : FileCacheItem Nat))] "k") := by
  constructor
  · exact (claim_C5_get_never_expired
      (⟨[("k", ⟨41, 5, 0, 0⟩)], [("k", ⟨41, 100, 0⟩)], none,
        ⟨100, 60, 3600, 86400⟩,
        ⟨0, 0, 0, 0, 0, 0, 0, 0, 0, 0, 0, 0⟩⟩ : MultiLevelCache Nat)
      10 "k").1 41
  · exact (claim_C5_get_never_expired
      (⟨[], [("k", ⟨41, 3, 0⟩)], none, ⟨100, 60, 3600, 86400⟩,
        ⟨0, 0, 0, 0, 0, 0, 0, 0, 0, 0, 0, 0⟩⟩ : MultiLevelCache Nat)
      10 "k").2.2 ⟨41, 3, 0⟩ (by decide) (by decide)

theorem assocLookup_insert_self {V : Type} (l : List (String × V))
    (key : String) (v : V) : assocLookup (assocInsert l key v) key = some v := by
  induction l with
  | nil => simp [assocInsert, assocLookup]
  | cons hd tl ih =>
    by_cases hk : hd.1 = key
    · simp [assocInsert, hk, assocLookup]
    · simpa [assocInsert, hk, assocLookup] using ih

/-- C10: `Set` applies the caller's `ttl` only to the L1 entry; the L2
file and the L3 entry (when L3 is enabled) are always written with the
configured tier TTLs, whatever `ttl` is; consequently a `Get` at any time
from the moment the caller's `ttl` has elapsed (so the L1 entry is dead)
up to the end of the L2 tier TTL still returns the value, served from L2. -/
theorem claim_C10_set_tier_ttls {V : Type} (c : MultiLevelCache V)
    (now : Int) (key : String) (v : V) (ttl : Int) :
    (assocLookup (MultiLevelCache.Set c now key v ttl).l1 key
        = some ⟨v, now + ttl, now, 0⟩) ∧
    (assocLookup (MultiLevelCache.Set c now key v ttl).l2 key
        = some ⟨v, now + c.config.l2TTL, now⟩) ∧
    (∀ l3s, c.l3 = some l3s →
      (MultiLevelCache.Set c now key v ttl).l3
        = some (assocInsert l3s key ⟨v, now + c.config.l3TTL, now⟩)) ∧
    (∀ t, now + ttl ≤ t → t ≤ now + c.config.l2TTL →
      (MultiLevelCache.Get (MultiLevelCache.Set c now key v ttl) t key).1
        = some v) := by
  refine ⟨?_, ?_, ?_, ?_⟩
  · exact assocLookup_insert_self c.l1 key ⟨v, now + ttl, now, 0⟩
  · exact assocLookup_insert_self c.l2 key ⟨v, now + c.config.l2TTL, now⟩
  · intro l3s h3
    rw [MultiLevelCache.Set]
    dsimp only
    rw [h3]
  · intro t hge hle
    have hl1 : (MultiLevelCache.Set c now key v ttl).l1
        = assocInsert c.l1 key ⟨v, now + ttl, now, 0⟩ := rfl
    have hl2 : (MultiLevelCache.Set c now key v ttl).l2
        = fileCacheSet c.l2 now key v c.config.l2TTL := rfl
    have hfc : fileCacheGet (fileCacheSet c.l2 now key v c.config.l2TTL)
        t key = (some v, fileCacheSet c.l2 now key v c.config.l2TTL) := by
      rw [fileCacheGet, fileCacheSet, assocLookup_insert_self]
      dsimp only
      rw [if_neg (by omega)]
    rw [MultiLevelCache.Get, hl1,
      assocLookup_insert_self c.l1 key ⟨v, now + ttl, now, 0⟩]
    dsimp only
    rw [if_neg (by omega), MultiLevelCache.getL2L3]
    dsimp only
    rw [hl2, hfc]

/-- Concrete instantiation of the C10 theorem: key k set with a caller
ttl of 10 at time 0 on a cache whose L2 TTL is 3600 — L1 expires at 10,
L2 at 3600, L3 is written with the 86400 tier TTL, and a `Get` at time
100 (after the caller's ttl) still returns the value. -/
theorem claim_C10_set_tier_ttls_witness :
    (assocLookup (MultiLevelCache.Set
        (⟨[], [], some [], ⟨100, 60, 3600, 86400⟩,
          ⟨0, 0, 0, 0, 0, 0, 0, 0, 0, 0, 0, 0⟩⟩ : MultiLevelCache Nat)
        0 "k" 41 10).l1 "k" = some ⟨41, 10, 0, 0⟩) ∧
      (assocLookup (MultiLevelCache.Set
        (⟨[], [], some [], ⟨100, 60, 3600, 86400⟩,
          ⟨0, 0, 0, 0, 0, 0, 0, 0, 0, 0, 0, 0⟩⟩ : MultiLevelCache Nat)
        0 "k" 41 10).l2 "k" = some ⟨41, 3600, 0⟩) ∧
      ((MultiLevelCache.Set
        (⟨[], [], some [], ⟨100, 60, 3600, 86400⟩,
          ⟨0, 0, 0, 0, 0, 0, 0, 0, 0, 0, 0, 0⟩⟩ : MultiLevelCache Nat)
        0 "k" 41 10).l3
          = some (assocInsert [] "k" ⟨41, 86400, 0⟩)) ∧
      ((MultiLevelCache.Get (MultiLevelCache.Set
        (⟨[], [], some [], ⟨100, 60, 3600, 86400⟩,
          ⟨0, 0, 0, 0, 0, 0, 0, 0, 0, 0, 0, 0⟩⟩ : MultiLevelCache Nat)
        0 "k" 41 10) 100 "k").1 = some 41) := by
  have h := claim_C10_set_tier_ttls
    (⟨[], [], some [], ⟨100, 60, 3600, 86400⟩,
      ⟨0, 0, 0, 0, 0, 0, 0, 0, 0, 0, 0, 0⟩⟩ : MultiLevelCache Nat)
    0 "k" 41 10
  exact ⟨h.1, h.2.1, h.2.2.1 [] rfl, h.2.2.2 100 (by decide) (by decide)⟩

/-! ## Paginated code search (`internal/github`, Client.SearchForKeys)

Embeds the pagination loop of `Client.SearchForKeys`. The per-page inner
retry loop (up to 5 attempts with token rotation and backoff against the
network) is summarized by its outcome: `fetch page` is `some` of the
decoded page when some attempt succeeded, `none` when all five failed —
the pagination logic only ever sees that outcome (`pageSuccess`,
`pageResult`). The ghost field `requested` records, in order, every page
number the loop attempted, so that "stops requesting further pages" is
expressible; the remaining fields mirror the Go locals `allItems`,
`totalCount`, `expectedTotal`, `pagesProcessed`. -/

/-- One decoded search page: the API-reported `total_count` and the
page's items. -/
structure SearchPage where
  totalCount : Nat
  items : List GitHubSearchItem
  deriving Repr, DecidableEq

/-- The loop state of `SearchForKeys` (plus the ghost `requested` list). -/
structure SearchLoopState where
  allItems : List GitHubSearchItem
  totalCount : Nat
  expectedTotal : Nat
  pagesProcessed : Nat
  requested : List Nat
  deriving Repr, DecidableEq

/-- The state update of a successful page: count it, latch
`totalCount`/`expectedTotal` (API total capped at 1000) on page 1, and
append the page's items. -/
def applyPage (page : Nat) (pr : SearchPage) (st : SearchLoopState) :
    SearchLoopState :=
  { st with
    requested := st.requested ++ [page],
    pagesProcessed := st.pagesProcessed + 1,
    totalCount := if page = 1 then pr.totalCount else st.totalCount,
    expectedTotal :=
      if page = 1 then min pr.totalCount 1000 else st.expectedTotal,
    allItems := st.allItems ++ pr.items }

/-- One iteration of the page loop body: the new state and whether the
loop breaks afterwards. A failed page breaks only when it is page 1
(otherwise `continue`); a successful page breaks exactly when
`expectedTotal > 0 && len(allItems) >= expectedTotal`. -/
def stepPage (fetch : Nat → Option SearchPage) (page : Nat)
    (st : SearchLoopState) : SearchLoopState × Bool :=
  match fetch page with
  | none => ({ st with requested := st.requested ++ [page] }, decide (page = 1))
  | some pr =>
    (applyPage page pr st,
      decide (0 < (applyPage page pr st).expectedTotal ∧
        (applyPage page pr st).expectedTotal
          ≤ (applyPage page pr st).allItems.length))

/-- The `for page := 1; page <= 10` loop, as fuel-indexed recursion. -/
def searchForKeysGo (fetch : Nat → Option SearchPage) :
    Nat → Nat → SearchLoopState → SearchLoopState
  | 0, _, st => st
  | fuel + 1, page, st =>
    if (stepPage fetch page st).2 then (stepPage fetch page st).1
    else searchForKeysGo fetch fuel (page + 1) (stepPage fetch page st).1

/-- The loop's initial state. -/
def initSearchState : SearchLoopState :=
  { allItems := [], totalCount := 0, expectedTotal := 0,
    pagesProcessed := 0, requested := [] }

/-- Go `Client.SearchForKeys`, pagination part: pages 1 through 10. -/
def SearchForKeys (fetch : Nat → Option SearchPage) : SearchLoopState :=
  searchForKeysGo fetch 10 1 initSearchState

/-- The state after the page-loop body has run on pages 1..p with no
break (used to name intermediate loop states). -/
def freeRun (fetch : Nat → Option SearchPage) : Nat → SearchLoopState
  | 0 => initSearchState
  | p + 1 => (stepPage fetch (p + 1) (freeRun fetch p)).1

/-- Whether the loop body breaks right after handling page `p`. -/
def stopAt (fetch : Nat → Option SearchPage) (p : Nat) : Bool :=
  (stepPage fetch p (freeRun fetch (p - 1))).2

/-- The page numbers 1..r. -/
def pagesUpTo (r : Nat) : List Nat := (List.range r).map (fun i => i + 1)

/-- A fetch outcome on which page 3 is a short page (50 of 100 items)
while the API-reported total is 300: pages 4..10 are still requested. -/
def fetchShortPage : Nat → Option SearchPage
  | 1 => some ⟨300, List.replicate 100 ⟨"s", "p", "u", ⟨"r", none⟩⟩⟩
  | 2 => some ⟨300, List.replicate 100 ⟨"s", "p", "u", ⟨"r", none⟩⟩⟩
  | 3 => some ⟨300, List.replicate 50 ⟨"s", "p", "u", ⟨"r", none⟩⟩⟩
  | _ => some ⟨300, []⟩

set_option maxRecDepth 8192 in
/-- C6 counterexample: with `fetchShortPage`, page 3 returns fewer items
(50) than a full page (100), yet the loop does not stop there — it goes
on to request pages 4 through 10, because a short page is not among the
loop's break conditions. -/
theorem claim_C6_counterexample :
    (Option.map (fun pr => pr.items.length) (fetchShortPage 3) = some 50) ∧
      (SearchForKeys fetchShortPage).requested
        = [1, 2, 3, 4, 5, 6, 7, 8, 9, 10] := by
  constructor
  · rfl
  · rfl

theorem stepPage_requested (fetch : Nat → Option SearchPage) (page : Nat)
    (st : SearchLoopState) :
    (stepPage fetch page st).1.requested = st.requested ++ [page] := by
  rw [stepPage]
  rcases hf : fetch page with _ | pr
  · rfl
  · rfl

theorem pagesUpTo_succ (r : Nat) :
    pagesUpTo (r + 1) = pagesUpTo r ++ [r + 1] := by
  rw [pagesUpTo, pagesUpTo, List.range_succ, List.map_append]
  rfl

theorem freeRun_requested (fetch : Nat → Option SearchPage) :
    ∀ p, (freeRun fetch p).requested = pagesUpTo p := by
  intro p
  induction p with
  | zero => rfl
  | succ n ih =>
    rw [freeRun, stepPage_requested, ih, pagesUpTo_succ]

theorem freeRun_succ_eq (fetch : Nat → Option SearchPage) (page : Nat)
    (hp : 1 ≤ page) :
    (stepPage fetch page (freeRun fetch (page - 1))).1
      = freeRun fetch page := by
  have hpe : page - 1 + 1 = page := by omega
  conv_rhs => rw [← hpe]
  rw [freeRun, hpe]

theorem searchForKeysGo_characterize (fetch : Nat → Option SearchPage) :
    ∀ (fuel page : Nat), 1 ≤ page →
      ∃ r, searchForKeysGo fetch fuel page (freeRun fetch (page - 1))
          = freeRun fetch r ∧
        page - 1 ≤ r ∧ r ≤ page - 1 + fuel ∧
        (1 ≤ fuel → page ≤ r) ∧
        (∀ q, page ≤ q → q < r → stopAt fetch q = false) ∧
        (r < page - 1 + fuel → stopAt fetch r = true) := by
  intro fuel
  induction fuel with
  | zero =>
    intro page hp
    exact ⟨page - 1, rfl, Nat.le_refl _, by omega,
      fun h => absurd h (by omega),
      fun q hq1 hq2 => absurd (Nat.lt_of_le_of_lt hq1 hq2) (by omega),
      fun h => absurd h (by omega)⟩
  | succ f ih =>
    intro page hp
    rw [searchForKeysGo]
    by_cases hs : (stepPage fetch page (freeRun fetch (page - 1))).2
    · rw [if_pos hs, freeRun_succ_eq fetch page hp]
      refine ⟨page, rfl, by omega, by omega, fun _ => Nat.le_refl _,
        fun q hq1 hq2 => absurd (Nat.lt_of_le_of_lt hq1 hq2) (by omega),
        fun _ => ?_⟩
      rw [stopAt]
      exact hs
    · rw [if_neg hs, freeRun_succ_eq fetch page hp]
      obtain ⟨r, heq, hb1, hb2, hb3, hns, hsr⟩ := ih (page + 1) (by omega)
      refine ⟨r, heq, by omega, by omega, fun _ => by omega, ?_, ?_⟩
      · intro q hq1 hq2
        by_cases hq : q = page
        · subst hq
          rw [stopAt]
          exact Bool.not_eq_true _ ▸ hs
        · exact hns q (by omega) hq2
      · intro hlt
        exact hsr (by omega)

theorem stopAt_iff (fetch : Nat → Option SearchPage) (p : Nat)
    (hp : 1 ≤ p) :
    stopAt fetch p = true ↔
      (fetch p = none ∧ p = 1) ∨
      (∃ pr, fetch p = some pr ∧ 0 < (freeRun fetch p).expectedTotal ∧
        (freeRun fetch p).expectedTotal
          ≤ (freeRun fetch p).allItems.length) := by
  have hfr : freeRun fetch p = (stepPage fetch p (freeRun fetch (p - 1))).1 :=
    (freeRun_succ_eq fetch p hp).symm
  rw [stopAt]
  rcases hf : fetch p with _ | pr
  · rw [stepPage, hf]
    simp [hf]
  · rw [stepPage, hf]
    rw [hfr, stepPage, hf]
    dsimp only
    simp [hf, decide_eq_true_iff]

theorem freeRun_expectedTotal (fetch : Nat → Option SearchPage)
    (pr : SearchPage) (h1 : fetch 1 = some pr) :
    ∀ p, 1 ≤ p →
      (freeRun fetch p).expectedTotal = min pr.totalCount 1000 := by
  intro p
  induction p with
  | zero => intro h; omega
  | succ n ih =>
    intro _
    rw [freeRun]
    rcases hf : fetch (n + 1) with _ | pr2
    · rw [stepPage, hf]
      dsimp only
      rcases Nat.eq_zero_or_pos n with hn | hn
      · rw [hn] at hf
        rw [hf] at h1
        exact absurd h1 (by simp)
      · exact ih (by omega)
    · rw [stepPage, hf]
      dsimp only [applyPage]
      rcases Nat.eq_zero_or_pos n with hn | hn
      · subst hn
        rw [hf] at h1
        injection h1 with h1
        simp [h1]
      · rw [if_neg (by omega)]
        exact ih (by omega)

/-- C6 as amended: the pagination loop requests exactly pages 1..r, where
r is 10 (the page-count ceiling) unless an earlier page triggers a break;
a break is triggered after page p exactly when the first page fails
outright (p = 1), or p succeeded and the aggregate collected item count
has reached the expected total (the page-1 API-reported total capped at
1000, when positive). A page returning fewer items than a full page does
not by itself stop paging. -/
theorem claim_C6_pagination_stop (fetch : Nat → Option SearchPage) :
    ∃ r, 1 ≤ r ∧ r ≤ 10 ∧
      SearchForKeys fetch = freeRun fetch r ∧
      (SearchForKeys fetch).requested = pagesUpTo r ∧
      (∀ q, 1 ≤ q → q < r → stopAt fetch q = false) ∧
      (r < 10 → stopAt fetch r = true) ∧
      (∀ p, 1 ≤ p → (stopAt fetch p = true ↔
        (fetch p = none ∧ p = 1) ∨
        (∃ pr, fetch p = some pr ∧ 0 < (freeRun fetch p).expectedTotal ∧
          (freeRun fetch p).expectedTotal
            ≤ (freeRun fetch p).allItems.length))) ∧
      (∀ p pr, 1 ≤ p → fetch 1 = some pr →
        (freeRun fetch p).expectedTotal = min pr.totalCount 1000) := by
  obtain ⟨r, heq, hb1, hb2, hb3, hns, hsr⟩ :=
    searchForKeysGo_characterize fetch 10 1 (Nat.le_refl 1)
  refine ⟨r, hb3 (by omega), by omega, heq, ?_, ?_, ?_, ?_, ?_⟩
  · rw [show SearchForKeys fetch
        = searchForKeysGo fetch 10 1 (freeRun fetch (1 - 1)) from rfl,
      heq, freeRun_requested]
  · intro q hq1 hq2
    exact hns q hq1 hq2
  · intro hr
    exact hsr (by omega)
  · intro p hp
    exact stopAt_iff fetch p hp
  · intro p pr hp h1
    exact freeRun_expectedTotal fetch pr h1 p hp

/-! ## Checkpoint persistence (`internal/filemanager`, `models.Checkpoint`)

Embeds `models.Checkpoint` and the `FileManager.SaveCheckpoint` /
`LoadCheckpoint` pair. Both use the same file path
(`DataPath`/`ScannedSHAsFile`), so the persisted file is modelled as one
`FsFile`. `SaveCheckpoint` is `json.MarshalIndent(checkpoint, "", "  ")`
plus a whole-file write; `LoadCheckpoint` is a stat (missing file →
fresh empty checkpoint), a whole-file read (error → error), and
`json.Unmarshal` (error → error).

The Go `encoding/json` codec, specialised to this struct, is modelled
character-for-character: the encoder follows `encodeState.string` (HTML
escaping on, `\uXXXX` for control characters, U+2028/U+2029 escaped) and
`MarshalIndent`'s two-space indentation; the decoder follows the scanner
and `unquoteBytes` (JSON whitespace, fields in any order, later
duplicates overwriting, `\u` escapes with surrogate-pair handling and
U+FFFD for lone surrogates, `null` leaving a string field and clearing a
slice field, mismatched value shapes an error) restricted to the value
shapes this file format holds — strings, arrays of strings and `null`.
Strings are Lean `String`s, i.e. sequences of Unicode scalar values
(Go strings holding invalid UTF-8 are outside the model; `encoding/json`
replaces their invalid bytes with U+FFFD). Decoder recursion carries
fuel, instantiated with the input length, which every step shrinks. -/

/-- Go `models.Checkpoint` (a nil slice and an empty one are both `[]`). -/
structure Checkpoint where
  lastScanTime : String
  scannedSHAs : List String
  processedQueries : List String
  waitSendBalancer : List String
  waitSendGPTLoad : List String
  deriving Repr, DecidableEq

/-- The checkpoint `LoadCheckpoint` builds when no file exists (also Go's
zero value for the struct, as built by `Unmarshal` before any field). -/
def emptyCheckpoint : Checkpoint :=
  { lastScanTime := "", scannedSHAs := [], processedQueries := [],
    waitSendBalancer := [], waitSendGPTLoad := [] }

/-- The lowercase hex digit for `n < 16` (Go writes `\u00XX` lowercase). -/
def hexDigit (n : Nat) : Char :=
  if n = 0 then '0' else if n = 1 then '1' else if n = 2 then '2'
  else if n = 3 then '3' else if n = 4 then '4' else if n = 5 then '5'
  else if n = 6 then '6' else if n = 7 then '7' else if n = 8 then '8'
  else if n = 9 then '9' else if n = 10 then 'a' else if n = 11 then 'b'
  else if n = 12 then 'c' else if n = 13 then 'd' else if n = 14 then 'e'
  else 'f'

/-- The encoding of one character inside a JSON string, per Go
`encodeState.string` with HTML escaping on. -/
def encChar (c : Char) : List Char :=
  if c = '"' then ['\\', '"']
  else if c = '\\' then ['\\', '\\']
  else if c = '\n' then ['\\', 'n']
  else if c = '\r' then ['\\', 'r']
  else if c = '\t' then ['\\', 't']
  else if c.toNat < 32 then
    ['\\', 'u', '0', '0', hexDigit (c.toNat / 16), hexDigit (c.toNat % 16)]
  else if c = '<' then ['\\', 'u', '0', '0', '3', 'c']
  else if c = '>' then ['\\', 'u', '0', '0', '3', 'e']
  else if c = '&' then ['\\', 'u', '0', '0', '2', '6']
  else if c.toNat = 0x2028 then ['\\', 'u', '2', '0', '2', '8']
  else if c.toNat = 0x2029 then ['\\', 'u', '2', '0', '2', '9']
  else [c]

/-- The encoded body of a JSON string (no surrounding quotes). -/
def encStringBody : List Char → List Char
  | [] => []
  | c :: rest => encChar c ++ encStringBody rest

/-- A JSON string literal. -/
def encString (s : List Char) : List Char := '"' :: encStringBody s ++ ['"']

/-- A JSON value as it appears in the checkpoint file: a string, an array
of strings, or null. -/
inductive JVal where
  | jstr (s : List Char)
  | jarr (xs : List (List Char))
  | jnull
  deriving Repr, DecidableEq

/-- Element lines after the first in a `MarshalIndent` string array at
object depth 1: each on its own line with four-space indentation. -/
def encArrTail : List (List Char) → List Char
  | [] => []
  | x :: rest =>
    ',' :: '\n' :: ' ' :: ' ' :: ' ' :: ' ' :: encString x ++ encArrTail rest

/-- A `MarshalIndent` string array at object depth 1: `[]` when empty,
otherwise one element per line, closing bracket at depth 1. -/
def encStrArray : List (List Char) → List Char
  | [] => ['[', ']']
  | x :: rest =>
    '[' :: '\n' :: ' ' :: ' ' :: ' ' :: ' ' :: encString x ++ encArrTail rest
      ++ '\n' :: ' ' :: ' ' :: [']']

/-- A `MarshalIndent` value at object depth 1 (the printer never emits
`jnull` for this struct; included for totality). -/
def printVal : JVal → List Char
  | JVal.jstr s => encString s
  | JVal.jarr xs => encStrArray xs
  | JVal.jnull => ['n', 'u', 'l', 'l']

/-- One `"key": value` member line at depth 1 (two-space indent). -/
def printMember (m : List Char × JVal) : List Char :=
  ' ' :: ' ' :: encString m.1 ++ ':' :: ' ' :: printVal m.2

/-- The member lines after the first, each preceded by `,\n`, and the
closing `\n}`. -/
def printMembersTail : List (List Char × JVal) → List Char
  | [] => ['\n', '}']
  | m :: ms => ',' :: '\n' :: printMember m ++ printMembersTail ms

/-- A whole `MarshalIndent(v, "", "  ")` object document. -/
def printDoc : List (List Char × JVal) → List Char
  | [] => ['{', '}']
  | m :: ms => '{' :: '\n' :: printMember m ++ printMembersTail ms

/-- The five members of the checkpoint struct, in Go field order, under
their `json:"..."` tags. -/
def checkpointMembers (cp : Checkpoint) : List (List Char × JVal) :=
  [("last_scan_time".toList, JVal.jstr cp.lastScanTime.toList),
   ("scanned_shas".toList, JVal.jarr (cp.scannedSHAs.map String.toList)),
   ("processed_queries".toList,
     JVal.jarr (cp.processedQueries.map String.toList)),
   ("wait_send_balancer".toList,
     JVal.jarr (cp.waitSendBalancer.map String.toList)),
   ("wait_send_gpt_load".toList,
     JVal.jarr (cp.waitSendGPTLoad.map String.toList))]

/-- Go `json.MarshalIndent(checkpoint, "", "  ")`. -/
def marshalIndentCheckpoint (cp : Checkpoint) : List Char :=
  printDoc (checkpointMembers cp)

/-- The value of a hex digit character (Go `getu4` accepts both cases). -/
def hexVal (c : Char) : Option Nat :=
  if '0' ≤ c ∧ c ≤ '9' then some (c.toNat - 48)
  else if 'a' ≤ c ∧ c ≤ 'f' then some (c.toNat - 87)
  else if 'A' ≤ c ∧ c ≤ 'F' then some (c.toNat - 55)
  else none

/-- JSON whitespace (space, tab, newline, carriage return). -/
def isJsonWs (c : Char) : Bool :=
  c = ' ' || c = '\t' || c = '\n' || c = '\r'

/-- Skip leading JSON whitespace. -/
def skipWs : List Char → List Char
  | [] => []
  | c :: rest => if isJsonWs c then skipWs rest else c :: rest

/-- Decode what follows a backslash in a JSON string, per Go
`unquoteBytes`: the single-character escapes, and `\uXXXX` with
surrogate-pair combination; a surrogate that does not begin a valid pair
decodes to U+FFFD consuming only its own escape; invalid escapes fail. -/
def parseEscape : List Char → Option (Char × List Char)
  | '"' :: rest => some ('"', rest)
  | '\\' :: rest => some ('\\', rest)
  | '/' :: rest => some ('/', rest)
  | 'b' :: rest => some ('\x08', rest)
  | 'f' :: rest => some ('\x0C', rest)
  | 'n' :: rest => some ('\n', rest)
  | 'r' :: rest => some ('\r', rest)
  | 't' :: rest => some ('\t', rest)
  | 'u' :: a :: b :: c :: d :: rest =>
    match hexVal a, hexVal b, hexVal c, hexVal d with
    | some va, some vb, some vc, some vd =>
      let n := va * 4096 + vb * 256 + vc * 16 + vd
      if 0xD800 ≤ n ∧ n ≤ 0xDFFF then
        match rest with
        | '\\' :: 'u' :: a2 :: b2 :: c2 :: d2 :: rest2 =>
          match hexVal a2, hexVal b2, hexVal c2, hexVal d2 with
          | some wa, some wb, some wc, some wd =>
            let n2 := wa * 4096 + wb * 256 + wc * 16 + wd
            if n ≤ 0xDBFF ∧ 0xDC00 ≤ n2 ∧ n2 ≤ 0xDFFF then
              some (Char.ofNat
                (0x10000 + (n - 0xD800) * 0x400 + (n2 - 0xDC00)), rest2)
            else some ('�', rest)
          | _, _, _, _ => some ('�', rest)
        | _ => some ('�', rest)
      else some (Char.ofNat n, rest)
    | _, _, _, _ => none
  | _ => none

/-- Decode a JSON string body up to and past the closing quote. A raw
control character fails (Go rejects them inside strings). Fuel bounds the
recursion; the callers pass the input length, which every step shrinks. -/
def parseStringBody : Nat → List Char → Option (List Char × List Char)
  | 0, _ => none
  | _, [] => none
  | fuel + 1, c :: rest =>
    if c = '"' then some ([], rest)
    else if c = '\\' then
      match parseEscape rest with
      | some (ch, rest2) =>
        (parseStringBody fuel rest2).map (fun p => (ch :: p.1, p.2))
      | none => none
    else if c.toNat < 32 then none
    else (parseStringBody fuel rest).map (fun p => (c :: p.1, p.2))

/-- Decode a JSON string literal (leading quote included). -/
def parseJString (fuel : Nat) : List Char → Option (List Char × List Char)
  | '"' :: rest => parseStringBody fuel rest
  | _ => none

/-- Decode the comma-separated elements of a non-empty string array, up
to and past the closing bracket. -/
def parseElems : Nat → List Char → Option (List (List Char) × List Char)
  | 0, _ => none
  | fuel + 1, l =>
    match parseJString fuel l with
    | none => none
    | some (s, r1) =>
      match skipWs r1 with
      | ',' :: r2 =>
        (parseElems fuel (skipWs r2)).map (fun p => (s :: p.1, p.2))
      | ']' :: r2 => some ([s], r2)
      | _ => none

/-- Decode a JSON value of the shapes the checkpoint file holds: a
string, an array of strings, or `null`. -/
def parseValue (fuel : Nat) (l : List Char) : Option (JVal × List Char) :=
  match l with
  | '"' :: rest =>
    (parseStringBody fuel rest).map (fun p => (JVal.jstr p.1, p.2))
  | '[' :: rest =>
    (match skipWs rest with
     | ']' :: r2 => some (JVal.jarr [], r2)
     | r1 => (parseElems fuel r1).map (fun p => (JVal.jarr p.1, p.2)))
  | 'n' :: 'u' :: 'l' :: 'l' :: rest => some (JVal.jnull, rest)
  | _ => none

/-- Decode the members of a non-empty object, up to and past the closing
brace, in the order written. -/
def parseMembers :
    Nat → List Char → Option (List (List Char × JVal) × List Char)
  | 0, _ => none
  | fuel + 1, l =>
    match parseJString fuel l with
    | none => none
    | some (k, r1) =>
      match skipWs r1 with
      | ':' :: r2 =>
        match parseValue fuel (skipWs r2) with
        | none => none
        | some (v, r3) =>
          match skipWs r3 with
          | ',' :: r4 =>
            (parseMembers fuel (skipWs r4)).map
              (fun p => ((k, v) :: p.1, p.2))
          | '}' :: r4 => some ([(k, v)], r4)
          | _ => none
      | _ => none

/-- Store one decoded member into the checkpoint struct, per Go
`Unmarshal` field matching on the `json` tags: a later duplicate key
overwrites, `null` leaves a string field and clears a slice field, a
mismatched shape is an `UnmarshalTypeError`, an unknown key is ignored. -/
def applyMember (cp : Checkpoint) (m : List Char × JVal) :
    Option Checkpoint :=
  if m.1 = "last_scan_time".toList then
    match m.2 with
    | JVal.jstr s => some { cp with lastScanTime := String.mk s }
    | JVal.jnull => some cp
    | JVal.jarr _ => none
  else if m.1 = "scanned_shas".toList then
    match m.2 with
    | JVal.jarr xs => some { cp with scannedSHAs := xs.map String.mk }
    | JVal.jnull => some { cp with scannedSHAs := [] }
    | JVal.jstr _ => none
  else if m.1 = "processed_queries".toList then
    match m.2 with
    | JVal.jarr xs => some { cp with processedQueries := xs.map String.mk }
    | JVal.jnull => some { cp with processedQueries := [] }
    | JVal.jstr _ => none
  else if m.1 = "wait_send_balancer".toList then
    match m.2 with
    | JVal.jarr xs => some { cp with waitSendBalancer := xs.map String.mk }
    | JVal.jnull => some { cp with waitSendBalancer := [] }
    | JVal.jstr _ => none
  else if m.1 = "wait_send_gpt_load".toList then
    match m.2 with
    | JVal.jarr xs => some { cp with waitSendGPTLoad := xs.map String.mk }
    | JVal.jnull => some { cp with waitSendGPTLoad := [] }
    | JVal.jstr _ => none
  else some cp

/-- Fold the decoded members into the struct, starting from its zero
value. -/
def buildCheckpoint : Checkpoint → List (List Char × JVal) → Option Checkpoint
  | cp, [] => some cp
  | cp, m :: ms =>
    match applyMember cp m with
    | none => none
    | some cp2 => buildCheckpoint cp2 ms

/-- The body of an object after `{`: either an immediate `}` (empty
object) or a member list. -/
def parseObjBody (fuel : Nat) (l : List Char) :
    Option (List (List Char × JVal) × List Char) :=
  match l with
  | '}' :: r2 => some (([] : List (List Char × JVal)), r2)
  | r1 => parseMembers fuel r1

/-- After the object, only whitespace may remain; then fold the members
into the struct. -/
def checkTrailing (p : List (List Char × JVal) × List Char) :
    Option Checkpoint :=
  match skipWs p.2 with
  | [] => buildCheckpoint emptyCheckpoint p.1
  | _ => none

/-- Go `json.Unmarshal(content, &checkpoint)`: an object document with
nothing but whitespace after it. -/
def unmarshalCheckpoint (l : List Char) : Option Checkpoint :=
  match skipWs l with
  | '{' :: rest => (parseObjBody l.length (skipWs rest)).bind checkTrailing
  | _ => none

/-- The checkpoint file as the two operations see it. -/
inductive FsFile where
  | missing
  | unreadable
  | content (data : List Char)
  deriving Repr, DecidableEq

/-- Go `FileManager.SaveCheckpoint`: marshal with two-space indentation
and write the whole file (`SaveCheckpoint` and `LoadCheckpoint` address
the same `DataPath`/`ScannedSHAsFile` path). -/
def SaveCheckpoint (cp : Checkpoint) : FsFile :=
  FsFile.content (marshalIndentCheckpoint cp)

/-- Go `FileManager.LoadCheckpoint`: a missing file yields a fresh empty
checkpoint; a read failure or an unmarshal failure is an error (which
`HajimiKing.Run` propagates, aborting startup). -/
def LoadCheckpoint (f : FsFile) : Except String Checkpoint :=
  match f with
  | FsFile.missing => Except.ok emptyCheckpoint
  | FsFile.unreadable => Except.error "failed to read checkpoint file"
  | FsFile.content data =>
    match unmarshalCheckpoint data with
    | some cp => Except.ok cp
    | none => Except.error "failed to unmarshal checkpoint"

theorem hexVal_hexDigit : ∀ n, n < 16 → hexVal (hexDigit n) = some n := by
  decide

theorem parseEscape_u00 (c : Char) (hc : c.toNat < 32) (rest : List Char) :
    parseEscape
      ('u' :: '0' :: '0' :: hexDigit (c.toNat / 16)
        :: hexDigit (c.toNat % 16) :: rest)
      = some (c, rest) := by
  obtain ⟨n, hn, rfl⟩ :
      ∃ n, n < 32 ∧ c = Char.ofNat n :=
    ⟨c.toNat, hc, (Char.ofNat_toNat c).symm⟩
  interval_cases n <;> rfl

theorem parseEscape_quote (q : List Char) :
    parseEscape ('"' :: q) = some ('"', q) := rfl

theorem parseEscape_backslash (q : List Char) :
    parseEscape ('\\' :: q) = some ('\\', q) := rfl

theorem parseEscape_n (q : List Char) :
    parseEscape ('n' :: q) = some ('\n', q) := rfl

theorem parseEscape_r (q : List Char) :
    parseEscape ('r' :: q) = some ('\r', q) := rfl

theorem parseEscape_t (q : List Char) :
    parseEscape ('t' :: q) = some ('\t', q) := rfl

theorem parseEscape_lt (q : List Char) :
    parseEscape ('u' :: '0' :: '0' :: '3' :: 'c' :: q) = some ('<', q) := rfl

theorem parseEscape_gt (q : List Char) :
    parseEscape ('u' :: '0' :: '0' :: '3' :: 'e' :: q) = some ('>', q) := rfl

theorem parseEscape_amp (q : List Char) :
    parseEscape ('u' :: '0' :: '0' :: '2' :: '6' :: q) = some ('&', q) := rfl

theorem parseStringBody_escape (f : Nat) (esc : List Char) (ch : Char)
    (tail : List Char) (he : parseEscape esc = some (ch, tail)) :
    parseStringBody (f + 1) ('\\' :: esc)
      = (parseStringBody f tail).map (fun p => (ch :: p.1, p.2)) := by
  rw [parseStringBody, if_neg (fun h => absurd h (by decide)), if_pos rfl, he]

theorem parseStringBody_literal (f : Nat) (c : Char) (tail : List Char)
    (h1 : ¬c = '"') (h2 : ¬c = '\\') (h3 : ¬c.toNat < 32) :
    parseStringBody (f + 1) (c :: tail)
      = (parseStringBody f tail).map (fun p => (c :: p.1, p.2)) := by
  rw [parseStringBody, if_neg h1, if_neg h2, if_neg h3]

theorem parseStringBody_enc :
    ∀ (s : List Char) (rest : List Char) (fuel : Nat),
      (encStringBody s ++ '"' :: rest).length ≤ fuel →
      parseStringBody fuel (encStringBody s ++ '"' :: rest)
        = some (s, rest) := by
  intro s
  induction s with
  | nil =>
    intro rest fuel hlen
    cases fuel with
    | zero => simp [encStringBody] at hlen
    | succ f => simp [encStringBody, parseStringBody]
  | cons c s' ih =>
    intro rest fuel hlen
    rw [encStringBody] at hlen ⊢
    rw [List.append_assoc] at hlen ⊢
    by_cases h1 : c = '"'
    · subst h1
      rw [show encChar '"' = ['\\', '"'] from rfl] at hlen ⊢
      have hf : 1 ≤ fuel := by simpa using Nat.le_trans (by simp) hlen
      obtain ⟨f, rfl⟩ := Nat.exists_eq_add_of_le hf
      rw [show (['\\', '"'] : List Char) ++ (encStringBody s' ++ '"' :: rest)
          = '\\' :: '"' :: (encStringBody s' ++ '"' :: rest) from rfl,
        Nat.add_comm 1 f,
        parseStringBody_escape f _ _ _ (parseEscape_quote _),
        ih rest f (by simp at hlen ⊢; omega)]
      rfl
    · by_cases h2 : c = '\\'
      · subst h2
        rw [show encChar '\\' = ['\\', '\\'] from rfl] at hlen ⊢
        have hf : 1 ≤ fuel := by simpa using Nat.le_trans (by simp) hlen
        obtain ⟨f, rfl⟩ := Nat.exists_eq_add_of_le hf
        rw [show (['\\', '\\'] : List Char)
            ++ (encStringBody s' ++ '"' :: rest)
            = '\\' :: '\\' :: (encStringBody s' ++ '"' :: rest) from rfl,
          Nat.add_comm 1 f,
          parseStringBody_escape f _ _ _ (parseEscape_backslash _),
          ih rest f (by simp at hlen ⊢; omega)]
        rfl
      · by_cases h3 : c = '\n'
        · subst h3
          rw [show encChar '\n' = ['\\', 'n'] from rfl] at hlen ⊢
          have hf : 1 ≤ fuel := by simpa using Nat.le_trans (by simp) hlen
          obtain ⟨f, rfl⟩ := Nat.exists_eq_add_of_le hf
          rw [show (['\\', 'n'] : List Char)
              ++ (encStringBody s' ++ '"' :: rest)
              = '\\' :: 'n' :: (encStringBody s' ++ '"' :: rest) from rfl,
            Nat.add_comm 1 f,
            parseStringBody_escape f _ _ _ (parseEscape_n _),
            ih rest f (by simp at hlen ⊢; omega)]
          rfl
        · by_cases h4 : c = '\r'
          · subst h4
            rw [show encChar '\r' = ['\\', 'r'] from rfl] at hlen ⊢
            have hf : 1 ≤ fuel := by simpa using Nat.le_trans (by simp) hlen
            obtain ⟨f, rfl⟩ := Nat.exists_eq_add_of_le hf
            rw [show (['\\', 'r'] : List Char)
                ++ (encStringBody s' ++ '"' :: rest)
                = '\\' :: 'r' :: (encStringBody s' ++ '"' :: rest) from rfl,
              Nat.add_comm 1 f,
              parseStringBody_escape f _ _ _ (parseEscape_r _),
              ih rest f (by simp at hlen ⊢; omega)]
            rfl
          · by_cases h5 : c = '\t'
            · subst h5
              rw [show encChar '\t' = ['\\', 't'] from rfl] at hlen ⊢
              have hf : 1 ≤ fuel := by simpa using Nat.le_trans (by simp) hlen
              obtain ⟨f, rfl⟩ := Nat.exists_eq_add_of_le hf
              rw [show (['\\', 't'] : List Char)
                  ++ (encStringBody s' ++ '"' :: rest)
                  = '\\' :: 't' :: (encStringBody s' ++ '"' :: rest) from rfl,
                Nat.add_comm 1 f,
                parseStringBody_escape f _ _ _ (parseEscape_t _),
                ih rest f (by simp at hlen ⊢; omega)]
              rfl
            · by_cases h6 : c.toNat < 32
              · rw [show encChar c
                    = '\\' :: 'u' :: '0' :: '0' :: hexDigit (c.toNat / 16)
                      :: [hexDigit (c.toNat % 16)] from by
                  rw [encChar, if_neg h1, if_neg h2, if_neg h3, if_neg h4,
                    if_neg h5, if_pos h6]] at hlen ⊢
                have hf : 1 ≤ fuel := by
                  simpa using Nat.le_trans (by simp) hlen
                obtain ⟨f, rfl⟩ := Nat.exists_eq_add_of_le hf
                rw [show ('\\' :: 'u' :: '0' :: '0'
                      :: hexDigit (c.toNat / 16)
                      :: [hexDigit (c.toNat % 16)])
                    ++ (encStringBody s' ++ '"' :: rest)
                    = '\\' :: ('u' :: '0' :: '0' :: hexDigit (c.toNat / 16)
                      :: hexDigit (c.toNat % 16)
                      :: (encStringBody s' ++ '"' :: rest)) from rfl,
                  Nat.add_comm 1 f,
                  parseStringBody_escape f _ _ _ (parseEscape_u00 c h6 _),
                  ih rest f (by simp at hlen ⊢; omega)]
                rfl
              · by_cases h7 : c = '<'
                · subst h7
                  rw [show encChar '<'
                      = ['\\', 'u', '0', '0', '3', 'c'] from rfl] at hlen ⊢
                  have hf : 1 ≤ fuel := by
                    simpa using Nat.le_trans (by simp) hlen
                  obtain ⟨f, rfl⟩ := Nat.exists_eq_add_of_le hf
                  rw [show (['\\', 'u', '0', '0', '3', 'c'] : List Char)
                      ++ (encStringBody s' ++ '"' :: rest)
                      = '\\' :: ('u' :: '0' :: '0' :: '3' :: 'c'
                        :: (encStringBody s' ++ '"' :: rest)) from rfl,
                    Nat.add_comm 1 f,
                    parseStringBody_escape f _ _ _ (parseEscape_lt _),
                    ih rest f (by simp at hlen ⊢; omega)]
                  rfl
                · by_cases h8 : c = '>'
                  · subst h8
                    rw [show encChar '>'
                        = ['\\', 'u', '0', '0', '3', 'e'] from rfl] at hlen ⊢
                    have hf : 1 ≤ fuel := by
                      simpa using Nat.le_trans (by simp) hlen
                    obtain ⟨f, rfl⟩ := Nat.exists_eq_add_of_le hf
                    rw [show (['\\', 'u', '0', '0', '3', 'e'] : List Char)
                        ++ (encStringBody s' ++ '"' :: rest)
                        = '\\' :: ('u' :: '0' :: '0' :: '3' :: 'e'
                          :: (encStringBody s' ++ '"' :: rest)) from rfl,
                      Nat.add_comm 1 f,
                      parseStringBody_escape f _ _ _ (parseEscape_gt _),
                      ih rest f (by simp at hlen ⊢; omega)]
                    rfl
                  · by_cases h9 : c = '&'
                    · subst h9
                      rw [show encChar '&'
                          = ['\\', 'u', '0', '0', '2', '6'] from rfl]
                        at hlen ⊢
                      have hf : 1 ≤ fuel := by
                        simpa using Nat.le_trans (by simp) hlen
                      obtain ⟨f, rfl⟩ := Nat.exists_eq_add_of_le hf
                      rw [show (['\\', 'u', '0', '0', '2', '6'] : List Char)
                          ++ (encStringBody s' ++ '"' :: rest)
                          = '\\' :: ('u' :: '0' :: '0' :: '2' :: '6'
                            :: (encStringBody s' ++ '"' :: rest)) from rfl,
                        Nat.add_comm 1 f,
                        parseStringBody_escape f _ _ _ (parseEscape_amp _),
                        ih rest f (by simp at hlen ⊢; omega)]
                      rfl
                    · by_cases h10 : c.toNat = 0x2028
                      · rw [show encChar c
                            = ['\\', 'u', '2', '0', '2', '8'] from by
                          rw [encChar, if_neg h1, if_neg h2, if_neg h3,
                            if_neg h4, if_neg h5, if_neg h6, if_neg h7,
                            if_neg h8, if_neg h9, if_pos h10]] at hlen ⊢
                        have hf : 1 ≤ fuel := by
                          simpa using Nat.le_trans (by simp) hlen
                        obtain ⟨f, rfl⟩ := Nat.exists_eq_add_of_le hf
                        have hesc : parseEscape
                            ('u' :: '2' :: '0' :: '2' :: '8'
                              :: (encStringBody s' ++ '"' :: rest))
                            = some (c, encStringBody s' ++ '"' :: rest) := by
                          rw [show parseEscape
                              ('u' :: '2' :: '0' :: '2' :: '8'
                                :: (encStringBody s' ++ '"' :: rest))
                              = some (Char.ofNat 0x2028,
                                encStringBody s' ++ '"' :: rest) from rfl,
                            ← h10, Char.ofNat_toNat]
                        rw [show (['\\', 'u', '2', '0', '2', '8'] : List Char)
                            ++ (encStringBody s' ++ '"' :: rest)
                            = '\\' :: ('u' :: '2' :: '0' :: '2' :: '8'
                              :: (encStringBody s' ++ '"' :: rest)) from rfl,
                          Nat.add_comm 1 f,
                          parseStringBody_escape f _ _ _ hesc,
                          ih rest f (by simp at hlen ⊢; omega)]
                        rfl
                      · by_cases h11 : c.toNat = 0x2029
                        · rw [show encChar c
                              = ['\\', 'u', '2', '0', '2', '9'] from by
                            rw [encChar, if_neg h1, if_neg h2, if_neg h3,
                              if_neg h4, if_neg h5, if_neg h6, if_neg h7,
                              if_neg h8, if_neg h9, if_neg h10,
                              if_pos h11]] at hlen ⊢
                          have hf : 1 ≤ fuel := by
                            simpa using Nat.le_trans (by simp) hlen
                          obtain ⟨f, rfl⟩ := Nat.exists_eq_add_of_le hf
                          have hesc : parseEscape
                              ('u' :: '2' :: '0' :: '2' :: '9'
                                :: (encStringBody s' ++ '"' :: rest))
                              = some (c,
                                encStringBody s' ++ '"' :: rest) := by
                            rw [show parseEscape
                                ('u' :: '2' :: '0' :: '2' :: '9'
                                  :: (encStringBody s' ++ '"' :: rest))
                                = some (Char.ofNat 0x2029,
                                  encStringBody s' ++ '"' :: rest) from rfl,
                              ← h11, Char.ofNat_toNat]
                          rw [show (['\\', 'u', '2', '0', '2', '9'] :
                                List Char)
                              ++ (encStringBody s' ++ '"' :: rest)
                              = '\\' :: ('u' :: '2' :: '0' :: '2' :: '9'
                                :: (encStringBody s' ++ '"' :: rest))
                              from rfl,
                            Nat.add_comm 1 f,
                            parseStringBody_escape f _ _ _ hesc,
                            ih rest f (by simp at hlen ⊢; omega)]
                          rfl
                        · rw [show encChar c = [c] from by
                            rw [encChar, if_neg h1, if_neg h2, if_neg h3,
                              if_neg h4, if_neg h5, if_neg h6, if_neg h7,
                              if_neg h8, if_neg h9, if_neg h10,
                              if_neg h11]] at hlen ⊢
                          have hf : 1 ≤ fuel := by
                            simpa using Nat.le_trans (by simp) hlen
                          obtain ⟨f, rfl⟩ := Nat.exists_eq_add_of_le hf
                          rw [show ([c] : List Char)
                              ++ (encStringBody s' ++ '"' :: rest)
                              = c :: (encStringBody s' ++ '"' :: rest)
                              from rfl,
                            Nat.add_comm 1 f,
                            parseStringBody_literal f c _ h1 h2 h6,
                            ih rest f (by simp at hlen ⊢; omega)]
                          rfl

theorem encString_cons_append (s A : List Char) :
    encString s ++ A = '"' :: (encStringBody s ++ '"' :: A) := by
  rw [encString]
  simp [List.append_assoc]

theorem parseJString_enc (s A : List Char) (fuel : Nat)
    (h : (encStringBody s ++ '"' :: A).length ≤ fuel) :
    parseJString fuel (encString s ++ A) = some (s, A) := by
  rw [encString_cons_append, parseJString]
  exact parseStringBody_enc s A fuel h

theorem skipWs_not (c : Char) (h : isJsonWs c = false) (l : List Char) :
    skipWs (c :: l) = c :: l := by
  simp [skipWs, h]

theorem skipWs_ws (c : Char) (h : isJsonWs c = true) (l : List Char) :
    skipWs (c :: l) = skipWs l := by
  simp [skipWs, h]

theorem parseElems_enc :
    ∀ (xs : List (List Char)) (x : List Char) (rest : List Char)
      (fuel : Nat),
      (encString x
        ++ (encArrTail xs ++ '\n' :: ' ' :: ' ' :: ']' :: rest)).length
        ≤ fuel →
      parseElems fuel
          (encString x
            ++ (encArrTail xs ++ '\n' :: ' ' :: ' ' :: ']' :: rest))
        = some (x :: xs, rest) := by
  intro xs
  induction xs with
  | nil =>
    intro x rest fuel hlen
    rw [encArrTail, List.nil_append] at hlen ⊢
    have hf : 1 ≤ fuel := by
      rw [encString_cons_append] at hlen
      simp at hlen
      omega
    obtain ⟨f, rfl⟩ := Nat.exists_eq_add_of_le hf
    rw [Nat.add_comm 1 f, parseElems,
      parseJString_enc x _ f (by
        rw [encString_cons_append] at hlen
        simp at hlen ⊢
        omega)]
    dsimp only
    rw [skipWs_ws '\n' rfl, skipWs_ws ' ' rfl, skipWs_ws ' ' rfl,
      skipWs_not ']' rfl]
    rfl
  | cons y ys ih =>
    intro x rest fuel hlen
    have harr : encArrTail (y :: ys) ++ ('\n' :: ' ' :: ' ' :: ']' :: rest)
        = ',' :: '\n' :: ' ' :: ' ' :: ' ' :: ' '
          :: (encString y
            ++ (encArrTail ys ++ ('\n' :: ' ' :: ' ' :: ']' :: rest))) := by
      rw [encArrTail]
      simp [List.append_assoc]
    rw [harr] at hlen ⊢
    have hf : 1 ≤ fuel := by
      rw [encString_cons_append] at hlen
      simp at hlen
      omega
    obtain ⟨f, rfl⟩ := Nat.exists_eq_add_of_le hf
    rw [Nat.add_comm 1 f, parseElems,
      parseJString_enc x _ f (by
        rw [encString_cons_append] at hlen
        simp at hlen ⊢
        omega)]
    show Option.map (fun p => (x :: p.1, p.2))
        (parseElems f (skipWs ('\n' :: ' ' :: ' ' :: ' ' :: ' '
          :: (encString y
            ++ (encArrTail ys ++ '\n' :: ' ' :: ' ' :: ']' :: rest)))))
      = some (x :: y :: ys, rest)
    rw [skipWs_ws '\n' rfl, skipWs_ws ' ' rfl, skipWs_ws ' ' rfl,
      skipWs_ws ' ' rfl, skipWs_ws ' ' rfl, encString_cons_append,
      skipWs_not '"' rfl, ← encString_cons_append,
      ih y rest f (by
        rw [encString_cons_append] at hlen
        simp at hlen ⊢
        omega)]
    rfl

theorem encStrArray_cons (x : List Char) (xs : List (List Char))
    (rest : List Char) :
    encStrArray (x :: xs) ++ rest
      = '[' :: '\n' :: ' ' :: ' ' :: ' ' :: ' '
        :: (encString x
          ++ (encArrTail xs ++ '\n' :: ' ' :: ' ' :: ']' :: rest)) := by
  rw [encStrArray]
  simp [List.append_assoc]

theorem parseValue_enc (v : JVal) (rest : List Char) (fuel : Nat)
    (h : (printVal v ++ rest).length ≤ fuel) :
    parseValue fuel (printVal v ++ rest) = some (v, rest) := by
  cases v with
  | jstr s =>
    rw [printVal] at h ⊢
    rw [encString_cons_append] at h ⊢
    rw [parseValue]
    rw [parseStringBody_enc s rest fuel (by simp at h ⊢; omega)]
    rfl
  | jarr xs =>
    cases xs with
    | nil =>
      rw [printVal, encStrArray]
      rfl
    | cons x xs' =>
      rw [printVal] at h ⊢
      rw [encStrArray_cons] at h ⊢
      rw [parseValue]
      rw [skipWs_ws '\n' rfl, skipWs_ws ' ' rfl, skipWs_ws ' ' rfl,
        skipWs_ws ' ' rfl, skipWs_ws ' ' rfl, encString_cons_append]
      show (parseElems fuel
          ('"' :: (encStringBody x
            ++ '"' :: (encArrTail xs' ++ '\n' :: ' ' :: ' ' :: ']' :: rest)))).map
          (fun p => (JVal.jarr p.1, p.2))
        = some (JVal.jarr (x :: xs'), rest)
      rw [← encString_cons_append,
        parseElems_enc xs' x rest fuel (by simp at h ⊢; omega)]
      rfl
  | jnull =>
    rw [printVal]
    rfl

theorem skipWs_printVal (v : JVal) (T : List Char) :
    skipWs (printVal v ++ T) = printVal v ++ T := by
  cases v with
  | jstr s =>
    rw [printVal, encString_cons_append, skipWs_not '"' rfl]
  | jarr xs =>
    cases xs with
    | nil =>
      rw [printVal, encStrArray]
      rfl
    | cons x xs' =>
      rw [printVal, encStrArray_cons, skipWs_not '[' rfl]
  | jnull =>
    rw [printVal]
    rfl

theorem parseMembers_enc :
    ∀ (ms : List (List Char × JVal)) (k : List Char) (v : JVal)
      (rest : List Char) (fuel : Nat),
      (encString k
        ++ (':' :: ' ' :: (printVal v ++ (printMembersTail ms ++ rest)))).length
        ≤ fuel →
      parseMembers fuel
          (encString k
            ++ (':' :: ' ' :: (printVal v ++ (printMembersTail ms ++ rest))))
        = some ((k, v) :: ms, rest) := by
  intro ms
  induction ms with
  | nil =>
    intro k v rest fuel hlen
    rw [show printMembersTail [] ++ rest = '\n' :: '}' :: rest from rfl]
      at hlen ⊢
    have hf : 1 ≤ fuel := by
      rw [encString_cons_append] at hlen
      simp at hlen
      omega
    obtain ⟨f, rfl⟩ := Nat.exists_eq_add_of_le hf
    rw [Nat.add_comm 1 f, parseMembers,
      parseJString_enc k _ f (by
        rw [encString_cons_append] at hlen
        simp at hlen ⊢
        omega)]
    simp only [skipWs_not ':' rfl, skipWs_ws ' ' rfl, skipWs_printVal,
      parseValue_enc v ('\n' :: '}' :: rest) f (by
        rw [encString_cons_append] at hlen
        simp at hlen ⊢
        omega),
      skipWs_ws '\n' rfl, skipWs_not '}' rfl]
  | cons m2 ms' ih =>
    intro k v rest fuel hlen
    obtain ⟨k2, v2⟩ := m2
    have htail : printMembersTail ((k2, v2) :: ms') ++ rest
        = ',' :: '\n' :: ' ' :: ' '
          :: (encString k2
            ++ (':' :: ' ' :: (printVal v2
              ++ (printMembersTail ms' ++ rest)))) := by
      rw [printMembersTail, printMember]
      simp [List.append_assoc]
    rw [htail] at hlen ⊢
    have hf : 1 ≤ fuel := by
      rw [encString_cons_append] at hlen
      simp at hlen
      omega
    obtain ⟨f, rfl⟩ := Nat.exists_eq_add_of_le hf
    have hih := ih k2 v2 rest f (by simp at hlen ⊢; omega)
    rw [encString_cons_append] at hih
    have hval := parseValue_enc v
        (',' :: '\n' :: ' ' :: ' '
          :: (encString k2
            ++ (':' :: ' ' :: (printVal v2
              ++ (printMembersTail ms' ++ rest))))) f
        (by simp at hlen ⊢; omega)
    rw [encString_cons_append] at hval
    rw [Nat.add_comm 1 f, parseMembers,
      parseJString_enc k _ f (by
        rw [encString_cons_append] at hlen
        simp at hlen ⊢
        omega)]
    simp only [skipWs_not ':' rfl, skipWs_ws ' ' rfl, skipWs_ws '\n' rfl,
      skipWs_not ',' rfl, skipWs_not '"' rfl, skipWs_printVal,
      encString_cons_append, hval, hih, Option.map_some']

theorem skipWs_nil : skipWs [] = [] := rfl

theorem parseObjBody_quote (fuel : Nat) (x : List Char) :
    parseObjBody fuel ('"' :: x) = parseMembers fuel ('"' :: x) := rfl

theorem checkTrailing_done (ms : List (List Char × JVal)) :
    checkTrailing (ms, []) = buildCheckpoint emptyCheckpoint ms := rfl

theorem opt_some_bind {A B : Type} (a : A) (f : A → Option B) :
    (some a).bind f = f a := rfl

theorem printDoc_cons (k : List Char) (v : JVal)
    (ms : List (List Char × JVal)) :
    printDoc ((k, v) :: ms)
      = '{' :: '\n' :: ' ' :: ' '
        :: (encString k
          ++ (':' :: ' ' :: (printVal v ++ (printMembersTail ms ++ [])))) := by
  rw [printDoc, printMember]
  simp [List.append_assoc]

theorem unmarshal_printDoc (k : List Char) (v : JVal)
    (ms : List (List Char × JVal)) :
    unmarshalCheckpoint (printDoc ((k, v) :: ms))
      = buildCheckpoint emptyCheckpoint ((k, v) :: ms) := by
  rw [printDoc_cons]
  have hpm := parseMembers_enc ms k v []
      ('{' :: '\n' :: ' ' :: ' '
        :: (encString k
          ++ (':' :: ' ' :: (printVal v
            ++ (printMembersTail ms ++ []))))).length
      (by simp only [List.length_cons, List.length_append]; omega)
  rw [encString_cons_append] at hpm
  rw [unmarshalCheckpoint]
  simp only [skipWs_not '{' rfl, skipWs_ws '\n' rfl, skipWs_ws ' ' rfl,
    encString_cons_append, skipWs_not '"' rfl, parseObjBody_quote, hpm,
    opt_some_bind, checkTrailing_done]

theorem mk_toList (s : String) : String.mk s.toList = s := rfl

theorem map_mk_toList : ∀ (l : List String),
    (l.map String.toList).map String.mk = l
  | [] => rfl
  | a :: t => by
    rw [List.map_cons, List.map_cons, map_mk_toList t, mk_toList]

theorem applyMember_lst (cp : Checkpoint) (s : List Char) :
    applyMember cp ("last_scan_time".toList, JVal.jstr s)
      = some { cp with lastScanTime := String.mk s } := by
  rw [applyMember, if_pos rfl]

theorem applyMember_shas (cp : Checkpoint) (xs : List (List Char)) :
    applyMember cp ("scanned_shas".toList, JVal.jarr xs)
      = some { cp with scannedSHAs := xs.map String.mk } := by
  rw [applyMember,
    if_neg (fun h => absurd
      (show ("scanned_shas".toList : List Char) = "last_scan_time".toList from h)
      (by decide)),
    if_pos rfl]

theorem applyMember_pq (cp : Checkpoint) (xs : List (List Char)) :
    applyMember cp ("processed_queries".toList, JVal.jarr xs)
      = some { cp with processedQueries := xs.map String.mk } := by
  rw [applyMember,
    if_neg (fun h => absurd
      (show ("processed_queries".toList : List Char) = "last_scan_time".toList from h)
      (by decide)),
    if_neg (fun h => absurd
      (show ("processed_queries".toList : List Char) = "scanned_shas".toList from h)
      (by decide)),
    if_pos rfl]

theorem applyMember_wsb (cp : Checkpoint) (xs : List (List Char)) :
    applyMember cp ("wait_send_balancer".toList, JVal.jarr xs)
      = some { cp with waitSendBalancer := xs.map String.mk } := by
  rw [applyMember,
    if_neg (fun h => absurd
      (show ("wait_send_balancer".toList : List Char) = "last_scan_time".toList from h)
      (by decide)),
    if_neg (fun h => absurd
      (show ("wait_send_balancer".toList : List Char) = "scanned_shas".toList from h)
      (by decide)),
    if_neg (fun h => absurd
      (show ("wait_send_balancer".toList : List Char) = "processed_queries".toList from h)
      (by decide)),
    if_pos rfl]

theorem applyMember_wsg (cp : Checkpoint) (xs : List (List Char)) :
    applyMember cp ("wait_send_gpt_load".toList, JVal.jarr xs)
      = some { cp with waitSendGPTLoad := xs.map String.mk } := by
  rw [applyMember,
    if_neg (fun h => absurd
      (show ("wait_send_gpt_load".toList : List Char) = "last_scan_time".toList from h)
      (by decide)),
    if_neg (fun h => absurd
      (show ("wait_send_gpt_load".toList : List Char) = "scanned_shas".toList from h)
      (by decide)),
    if_neg (fun h => absurd
      (show ("wait_send_gpt_load".toList : List Char) = "processed_queries".toList from h)
      (by decide)),
    if_neg (fun h => absurd
      (show ("wait_send_gpt_load".toList : List Char) = "wait_send_balancer".toList from h)
      (by decide)),
    if_pos rfl]

theorem buildCheckpoint_members (cp : Checkpoint) :
    buildCheckpoint emptyCheckpoint (checkpointMembers cp) = some cp := by
  simp only [checkpointMembers, buildCheckpoint, applyMember_lst,
    applyMember_shas, applyMember_pq, applyMember_wsb, applyMember_wsg,
    map_mk_toList, mk_toList]

theorem unmarshal_marshal (cp : Checkpoint) :
    unmarshalCheckpoint (marshalIndentCheckpoint cp) = some cp := by
  rw [marshalIndentCheckpoint, checkpointMembers, unmarshal_printDoc,
    show ("scanned_shas".toList,
        JVal.jarr (cp.scannedSHAs.map String.toList))
      :: ("processed_queries".toList,
        JVal.jarr (cp.processedQueries.map String.toList))
      :: ("wait_send_balancer".toList,
        JVal.jarr (cp.waitSendBalancer.map String.toList))
      :: [("wait_send_gpt_load".toList,
        JVal.jarr (cp.waitSendGPTLoad.map String.toList))]
      = List.tail (checkpointMembers cp) from rfl]
  rw [show ("last_scan_time".toList, JVal.jstr cp.lastScanTime.toList)
      :: List.tail (checkpointMembers cp) = checkpointMembers cp from rfl]
  exact buildCheckpoint_members cp

/-- C8: for every checkpoint value, `SaveCheckpoint` followed by
`LoadCheckpoint` yields a checkpoint equal to the one saved: the same
`LastScanTime`, `ScannedSHAs`, `ProcessedQueries`, and the two
pending-sync lists. -/
theorem claim_C8_checkpoint_roundtrip (cp : Checkpoint) :
    LoadCheckpoint (SaveCheckpoint cp) = Except.ok cp := by
  simp only [SaveCheckpoint, LoadCheckpoint, unmarshal_marshal cp]

/-- `HajimiKing.Run`, step 3: load the checkpoint; a load error is
returned from `Run` itself (startup aborts), a loaded checkpoint becomes
the application state. -/
def runLoadStep (f : FsFile) : Except String Checkpoint :=
  match LoadCheckpoint f with
  | Except.ok cp => Except.ok cp
  | Except.error err => Except.error err

/-- C7 (counterexample): an existing checkpoint file whose contents are
not valid JSON does not yield a fresh empty checkpoint — `LoadCheckpoint`
returns an unmarshal error, `Run` propagates it, and an unreadable file
likewise returns a read error, contradicting the claimed fall-back. -/
theorem claim_C7_counterexample :
    LoadCheckpoint (FsFile.content ['n', 'o', 't'])
        = Except.error "failed to unmarshal checkpoint"
      ∧ LoadCheckpoint (FsFile.content ['n', 'o', 't'])
        ≠ Except.ok emptyCheckpoint
      ∧ LoadCheckpoint FsFile.unreadable
        = Except.error "failed to read checkpoint file"
      ∧ runLoadStep (FsFile.content ['n', 'o', 't'])
        = Except.error "failed to unmarshal checkpoint" := by
  refine ⟨rfl, fun h => ?_, rfl, rfl⟩
  rw [show LoadCheckpoint (FsFile.content ['n', 'o', 't'])
      = Except.error "failed to unmarshal checkpoint" from rfl] at h
  exact Except.noConfusion h

/-- C7 (amended): only a missing checkpoint file falls back to a fresh
empty checkpoint; an existing file that cannot be read, or whose
contents cannot be parsed, makes `LoadCheckpoint` return an error, which
`Run` propagates, aborting startup. -/
theorem claim_C7_corrupt_checkpoint_aborts :
    LoadCheckpoint FsFile.missing = Except.ok emptyCheckpoint
    ∧ LoadCheckpoint FsFile.unreadable
        = Except.error "failed to read checkpoint file"
    ∧ ∀ data, unmarshalCheckpoint data = none →
        LoadCheckpoint (FsFile.content data)
            = Except.error "failed to unmarshal checkpoint"
          ∧ runLoadStep (FsFile.content data)
            = Except.error "failed to unmarshal checkpoint" := by
  refine ⟨rfl, rfl, fun data h => ?_⟩
  have hload : LoadCheckpoint (FsFile.content data)
      = Except.error "failed to unmarshal checkpoint" := by
    simp only [LoadCheckpoint, h]
  exact ⟨hload, by simp only [runLoadStep, hload]⟩

theorem claim_C7_corrupt_checkpoint_aborts_witness :
    unmarshalCheckpoint ['n', 'o', 't'] = none
      ∧ LoadCheckpoint (FsFile.content ['n', 'o', 't'])
        = Except.error "failed to unmarshal checkpoint" :=
  ⟨rfl, (claim_C7_corrupt_checkpoint_aborts.2.2 ['n', 'o', 't'] rfl).1⟩

/-- Go `unicode.IsSpace` on the Latin-1 range (space, tab, newline,
vertical tab, form feed, carriage return, NEL, NBSP), the characters
`strings.Fields` splits on. -/
def goIsSpace (c : Char) : Bool :=
  c = ' ' || c = '\t' || c = '\n' || c.toNat = 11 || c.toNat = 12
    || c = '\r' || c.toNat = 0x85 || c.toNat = 0xA0

/-- `strings.Fields`: the whitespace-separated words, accumulator form. -/
def fieldsAux : List Char → List Char → List (List Char)
  | [], acc => if acc.isEmpty then [] else [acc]
  | c :: t, acc =>
    if goIsSpace c then
      if acc.isEmpty then fieldsAux t [] else acc :: fieldsAux t []
    else fieldsAux t (acc ++ [c])

/-- Go `strings.Fields(query)`. -/
def goFields (l : List Char) : List (List Char) := fieldsAux l []

/-- Go `strings.Join(parts, " ")`. -/
def joinSpace : List (List Char) → List Char
  | [] => []
  | [w] => w
  | w :: w2 :: ws => w ++ ' ' :: joinSpace (w2 :: ws)

/-- Go `strings.Index(query[i+1:], "\"")` split: the characters before
the first `"` and those after it, if one exists. -/
def findQuote : List Char → Option (List Char × List Char)
  | [] => none
  | c :: t =>
    if c = '"' then some ([], t)
    else (findQuote t).map (fun p => (c :: p.1, p.2))

/-- The inner word loop `for i < len(query) && query[i] != ' '`: the
consumed word and the remainder (which is empty or starts with `' '`). -/
def takeWord : List Char → List Char × List Char
  | [] => ([], [])
  | c :: t =>
    if c = ' ' then ([], c :: t)
    else (c :: (takeWord t).1, (takeWord t).2)

/-- The part-scanning loop of `NormalizeQuery`: a `"` either opens a
quoted part running through the matching `"` or, unmatched, stands as a
single-character part; a space is skipped; anything else starts a word
running to the next space. -/
def parseParts : Nat → List Char → List (List Char)
  | 0, _ => []
  | fuel + 1, l =>
    match l with
    | [] => []
    | c :: rest =>
      if c = '"' then
        match findQuote rest with
        | some (inside, rest2) =>
          ('"' :: (inside ++ ['"'])) :: parseParts fuel rest2
        | none => ['"'] :: parseParts fuel rest
      else if c = ' ' then parseParts fuel rest
      else (c :: (takeWord rest).1) :: parseParts fuel (takeWord rest).2

/-- Go `strings.HasPrefix(p, pre)`. -/
def hasPrefixPart (pre p : List Char) : Bool := pre.isPrefixOf p

/-- Go `strings.HasPrefix(part, "\"")`. -/
def startsWithQuote : List Char → Bool
  | [] => false
  | c :: _ => c = '"'

/-- Go `strings.HasSuffix(part, "\"")`. -/
def endsWithQuote (p : List Char) : Bool :=
  match p.getLast? with
  | some c => c = '"'
  | none => false

/-- The category a part is appended to, following the if/else chain of
`NormalizeQuery` in order: 0 quoted, 1 `language:`, 2 `filename:`,
3 `path:`, 4 other, 5 dropped (whitespace-only). -/
def partCategory (p : List Char) : Nat :=
  if startsWithQuote p && endsWithQuote p then 0
  else if hasPrefixPart "language:".toList p then 1
  else if hasPrefixPart "filename:".toList p then 2
  else if hasPrefixPart "path:".toList p then 3
  else if p.any (fun c => !goIsSpace c) then 4
  else 5

/-- The reassembly order of `NormalizeQuery`: quoted strings, then other
parts, then `language:`, `filename:`, `path:` parts, each group in
first-appearance order (the per-category append lists of the source,
read off as filters). -/
def normalizeParts (parts : List (List Char)) : List (List Char) :=
  parts.filter (fun p => partCategory p == 0)
    ++ parts.filter (fun p => partCategory p == 4)
    ++ parts.filter (fun p => partCategory p == 1)
    ++ parts.filter (fun p => partCategory p == 2)
    ++ parts.filter (fun p => partCategory p == 3)

/-- Go `FileManager.NormalizeQuery`: whitespace-normalize, scan into
parts, regroup by category, join with single spaces. -/
def NormalizeQuery (q : List Char) : List Char :=
  joinSpace (normalizeParts
    (parseParts (joinSpace (goFields q)).length (joinSpace (goFields q))))

/-- C9 (counterexample): `NormalizeQuery` is not idempotent. On
`a"b " c` the word scanner keeps `a"b` intact and treats the lone `"`
as a quoted part, which the regrouping moves to the front; rescanning
the result pairs that `"` with the quote inside `a"b`, splitting the
parts differently, so a second normalization changes the string. -/
theorem claim_C9_counterexample :
    NormalizeQuery "a\"b \" c".toList = "\" a\"b c".toList
      ∧ NormalizeQuery (NormalizeQuery "a\"b \" c".toList)
        = "\" a\" b c".toList
      ∧ NormalizeQuery (NormalizeQuery "a\"b \" c".toList)
        ≠ NormalizeQuery "a\"b \" c".toList := by
  refine ⟨by decide, by decide, by decide⟩

theorem ne_space_of_not_space {c : Char} (h : goIsSpace c = false) :
    c ≠ ' ' := by
  intro hc
  rw [hc] at h
  exact absurd h (by decide)

theorem fieldsAux_append_word (w : List Char) :
    ∀ (l acc : List Char), (∀ c ∈ w, goIsSpace c = false) →
      fieldsAux (w ++ l) acc = fieldsAux l (acc ++ w) := by
  induction w with
  | nil =>
    intro l acc _
    rw [List.nil_append, List.append_nil]
  | cons c w' ih =>
    intro l acc hw
    rw [List.cons_append, fieldsAux,
      if_neg (by rw [hw c (List.mem_cons_self c w')]; exact Bool.noConfusion),
      ih l (acc ++ [c]) (fun d hd => hw d (List.mem_cons_of_mem c hd)),
      List.append_assoc]
    rfl

theorem goFields_joinSpace :
    ∀ (P : List (List Char)),
      (∀ w ∈ P, w ≠ [] ∧ ∀ c ∈ w, goIsSpace c = false) →
      goFields (joinSpace P) = P := by
  intro P
  induction P with
  | nil => intro _; rfl
  | cons w P' ih =>
    intro hP
    obtain ⟨hwne, hwns⟩ := hP w (List.mem_cons_self w P')
    have hno : ¬(w.isEmpty = true) := by
      cases w with
      | nil => exact absurd rfl hwne
      | cons c t => exact Bool.noConfusion
    cases P' with
    | nil =>
      show fieldsAux (joinSpace [w]) [] = [w]
      rw [joinSpace, show w = w ++ [] from (List.append_nil w).symm,
        fieldsAux_append_word w [] [] hwns, List.nil_append, List.append_nil,
        fieldsAux, if_neg hno]
    | cons w2 P'' =>
      show fieldsAux (joinSpace (w :: w2 :: P'')) [] = w :: w2 :: P''
      rw [joinSpace, fieldsAux_append_word w _ [] hwns, List.nil_append,
        fieldsAux, if_pos (show goIsSpace ' ' = true from rfl), if_neg hno]
      exact congrArg (w :: ·)
        (ih (fun v hv => hP v (List.mem_cons_of_mem w hv)))

theorem takeWord_append (w : List Char) :
    ∀ (l : List Char), (∀ c ∈ w, c ≠ ' ') →
      (l = [] ∨ ∃ t, l = ' ' :: t) → takeWord (w ++ l) = (w, l) := by
  induction w with
  | nil =>
    intro l _ hl
    rcases hl with rfl | ⟨t, rfl⟩
    · rfl
    · rw [List.nil_append, takeWord, if_pos rfl]
  | cons c w' ih =>
    intro l hw hl
    rw [List.cons_append, takeWord,
      if_neg (hw c (List.mem_cons_self c w')),
      ih l (fun d hd => hw d (List.mem_cons_of_mem c hd)) hl]

theorem parseParts_nil : ∀ fuel, parseParts fuel [] = [] := by
  intro fuel
  cases fuel <;> rfl

theorem parseParts_words :
    ∀ (P : List (List Char)),
      (∀ w ∈ P, w ≠ [] ∧ ∀ c ∈ w, goIsSpace c = false ∧ c ≠ '"') →
      ∀ fuel, (joinSpace P).length ≤ fuel →
      parseParts fuel (joinSpace P) = P := by
  intro P
  induction P with
  | nil => intro _ fuel _; exact parseParts_nil fuel
  | cons w P' ih =>
    intro hP fuel hlen
    obtain ⟨hwne, hwp⟩ := hP w (List.mem_cons_self w P')
    cases w with
    | nil => exact absurd rfl hwne
    | cons c w'' =>
    have hcq : ¬(c = '"') := (hwp c (List.mem_cons_self c w'')).2
    have hcs : ¬(c = ' ') :=
      ne_space_of_not_space (hwp c (List.mem_cons_self c w'')).1
    have hw''s : ∀ d ∈ w'', d ≠ ' ' :=
      fun d hd => ne_space_of_not_space
        (hwp d (List.mem_cons_of_mem c hd)).1
    cases P' with
    | nil =>
      show parseParts fuel (joinSpace [c :: w'']) = [c :: w'']
      rw [joinSpace] at hlen ⊢
      obtain ⟨f, rfl⟩ : ∃ f, fuel = 1 + f := by
        refine Nat.exists_eq_add_of_le ?_
        simp at hlen
        omega
      rw [Nat.add_comm 1 f, parseParts]
      have htw : takeWord w'' = (w'', []) := by
        have h := takeWord_append w'' [] hw''s (Or.inl rfl)
        rwa [List.append_nil] at h
      simp only [if_neg hcq, if_neg hcs, htw, parseParts_nil]
    | cons w2 P'' =>
      have hjoin : joinSpace ((c :: w'') :: w2 :: P'')
          = c :: (w'' ++ ' ' :: joinSpace (w2 :: P'')) := by
        rw [joinSpace, List.cons_append]
      rw [hjoin] at hlen ⊢
      obtain ⟨f, rfl⟩ : ∃ f, fuel = 1 + f := by
        refine Nat.exists_eq_add_of_le ?_
        simp at hlen
        omega
      rw [Nat.add_comm 1 f, parseParts]
      have htw : takeWord (w'' ++ ' ' :: joinSpace (w2 :: P''))
          = (w'', ' ' :: joinSpace (w2 :: P'')) :=
        takeWord_append w'' _ hw''s (Or.inr ⟨_, rfl⟩)
      obtain ⟨f2, rfl⟩ : ∃ f2, f = 1 + f2 := by
        refine Nat.exists_eq_add_of_le ?_
        simp at hlen
        omega
      rw [Nat.add_comm 1 f2]
      simp only [if_neg hcq, if_neg hcs, htw, parseParts,
        if_neg (by decide : ¬(' ' = '"')), if_pos rfl]
      exact congrArg ((c :: w'') :: ·)
        (ih (fun v hv => hP v (List.mem_cons_of_mem _ hv)) f2
          (by simp at hlen ⊢; omega))

theorem mem_normalizeParts {w : List Char} {P : List (List Char)}
    (h : w ∈ normalizeParts P) : w ∈ P := by
  rw [normalizeParts] at h
  rcases List.mem_append.mp h with h | h
  · rcases List.mem_append.mp h with h | h
    · rcases List.mem_append.mp h with h | h
      · rcases List.mem_append.mp h with h | h
        · exact (List.mem_filter.mp h).1
        · exact (List.mem_filter.mp h).1
      · exact (List.mem_filter.mp h).1
    · exact (List.mem_filter.mp h).1
  · exact (List.mem_filter.mp h).1

theorem filter_cat_self (i : Nat) :
    ∀ (P : List (List Char)),
      List.filter (fun p => partCategory p == i)
          (List.filter (fun p => partCategory p == i) P)
        = List.filter (fun p => partCategory p == i) P := by
  intro P
  induction P with
  | nil => rfl
  | cons x t ih =>
    by_cases hx : (partCategory x == i) = true
    · rw [List.filter_cons, if_pos hx, List.filter_cons, if_pos hx, ih]
    · rw [List.filter_cons, if_neg hx, ih]

theorem filter_cat_ne (i j : Nat) (hij : i ≠ j) :
    ∀ (P : List (List Char)),
      List.filter (fun p => partCategory p == i)
          (List.filter (fun p => partCategory p == j) P)
        = [] := by
  intro P
  induction P with
  | nil => rfl
  | cons x t ih =>
    by_cases hx : (partCategory x == j) = true
    · have hxi : ¬((partCategory x == i) = true) := by
        rw [beq_iff_eq] at hx ⊢
        rw [hx]
        exact fun h => hij h.symm
      rw [List.filter_cons, if_pos hx, List.filter_cons, if_neg hxi, ih]
    · rw [List.filter_cons, if_neg hx, ih]

theorem normalizeParts_idem (P : List (List Char)) :
    normalizeParts (normalizeParts P) = normalizeParts P := by
  simp only [normalizeParts, List.filter_append, filter_cat_self,
    filter_cat_ne 0 4 (by decide), filter_cat_ne 0 1 (by decide),
    filter_cat_ne 0 2 (by decide), filter_cat_ne 0 3 (by decide),
    filter_cat_ne 4 0 (by decide), filter_cat_ne 4 1 (by decide),
    filter_cat_ne 4 2 (by decide), filter_cat_ne 4 3 (by decide),
    filter_cat_ne 1 0 (by decide), filter_cat_ne 1 4 (by decide),
    filter_cat_ne 1 2 (by decide), filter_cat_ne 1 3 (by decide),
    filter_cat_ne 2 0 (by decide), filter_cat_ne 2 4 (by decide),
    filter_cat_ne 2 1 (by decide), filter_cat_ne 2 3 (by decide),
    filter_cat_ne 3 0 (by decide), filter_cat_ne 3 4 (by decide),
    filter_cat_ne 3 1 (by decide), filter_cat_ne 3 2 (by decide),
    List.append_nil, List.nil_append]

theorem fieldsAux_words :
    ∀ (l acc : List Char), (∀ c ∈ l, c ≠ '"') →
      (∀ c ∈ acc, goIsSpace c = false ∧ c ≠ '"') →
      ∀ w ∈ fieldsAux l acc,
        w ≠ [] ∧ ∀ c ∈ w, goIsSpace c = false ∧ c ≠ '"' := by
  intro l
  induction l with
  | nil =>
    intro acc _ hacc w hw
    rw [fieldsAux] at hw
    by_cases he : (acc.isEmpty = true)
    · rw [if_pos he] at hw
      exact absurd hw (List.not_mem_nil w)
    · rw [if_neg he] at hw
      rcases List.mem_singleton.mp hw with rfl
      refine ⟨?_, hacc⟩
      cases w with
      | nil => exact absurd rfl he
      | cons a b => exact fun h => List.noConfusion h
  | cons c t ih =>
    intro acc hl hacc w hw
    have hcq : c ≠ '"' := hl c (List.mem_cons_self c t)
    have hlt : ∀ d ∈ t, d ≠ '"' :=
      fun d hd => hl d (List.mem_cons_of_mem c hd)
    rw [fieldsAux] at hw
    by_cases hsp : (goIsSpace c = true)
    · rw [if_pos hsp] at hw
      by_cases he : (acc.isEmpty = true)
      · rw [if_pos he] at hw
        exact ih [] hlt (fun d hd => absurd hd (List.not_mem_nil d)) w hw
      · rw [if_neg he] at hw
        rcases List.mem_cons.mp hw with rfl | hw2
        · refine ⟨?_, hacc⟩
          cases w with
          | nil => exact absurd rfl he
          | cons a b => exact fun h => List.noConfusion h
        · exact ih [] hlt (fun d hd => absurd hd (List.not_mem_nil d)) w hw2
    · rw [if_neg hsp] at hw
      refine ih (acc ++ [c]) hlt ?_ w hw
      intro d hd
      rcases List.mem_append.mp hd with hd2 | hd2
      · exact hacc d hd2
      · rcases List.mem_singleton.mp hd2 with rfl
        exact ⟨Bool.not_eq_true _ ▸ hsp, hcq⟩

/-- C9 (amended): `NormalizeQuery` is idempotent on every query string
that contains no `"` character: normalizing once space-normalizes and
regroups the words, and a second pass recovers exactly the same words
and categories, leaving the string unchanged. -/
theorem claim_C9_normalize_idempotent (q : List Char)
    (hq : ∀ c ∈ q, c ≠ '"') :
    NormalizeQuery (NormalizeQuery q) = NormalizeQuery q := by
  have hW : ∀ w ∈ goFields q,
      w ≠ [] ∧ ∀ c ∈ w, goIsSpace c = false ∧ c ≠ '"' :=
    fieldsAux_words q [] hq (fun d hd => absurd hd (List.not_mem_nil d))
  have hPP : parseParts (joinSpace (goFields q)).length
      (joinSpace (goFields q)) = goFields q :=
    parseParts_words (goFields q) hW _ (Nat.le_refl _)
  have hNQ : NormalizeQuery q
      = joinSpace (normalizeParts (goFields q)) := by
    rw [NormalizeQuery, hPP]
  have hS : ∀ w ∈ normalizeParts (goFields q),
      w ≠ [] ∧ ∀ c ∈ w, goIsSpace c = false ∧ c ≠ '"' :=
    fun w hw => hW w (mem_normalizeParts hw)
  have hF2 : goFields (joinSpace (normalizeParts (goFields q)))
      = normalizeParts (goFields q) :=
    goFields_joinSpace _
      (fun w hw => ⟨(hS w hw).1, fun c hc => ((hS w hw).2 c hc).1⟩)
  rw [hNQ, NormalizeQuery, hF2,
    parseParts_words _ hS _ (Nat.le_refl _), normalizeParts_idem]

theorem claim_C9_normalize_idempotent_witness :
    (∀ c ∈ "b  a".toList, c ≠ '"')
      ∧ NormalizeQuery (NormalizeQuery "b  a".toList)
        = NormalizeQuery "b  a".toList :=
  ⟨by decide, claim_C9_normalize_idempotent "b  a".toList (by decide)⟩

end HKGo
